import Mathlib

/-!
Verification of the activity-count extraction pipeline of `inst/extract.py`
(the `agcounter` package) against its natural-language specification.

The pipeline is embedded shallowly over `ℚ`: the Python code computes with
IEEE float64, which we idealize as exact rational arithmetic; decimal literals
of the source are taken at their decimal value, and `np.pi` is taken at the
exact rational value of the float64 constant used by numpy.  All definitions
below are transcribed from `src/inst/extract.py`; the only external function
used by the source, `scipy.signal.lfilter` with its `lfilter_zi` steady-state
initializer, is embedded as the direct-form-II-transposed recurrence that
scipy implements, with the exact rational solution of the `lfilter_zi` linear
system given explicitly and certified by `ziVec_solves_lfilter_zi_system`.
-/

section AGCount

attribute [local semireducible] Rat.mul Rat.inv Rat.add Rat.sub Rat.ofScientific

set_option maxRecDepth 40000

/-- Left-to-right sum `f 0 + f 1 + ⋯ + f (n-1)`, the order `np.sum` and the
Python `sum` builtin use. -/
def sumTo (f : ℕ → ℚ) : ℕ → ℚ
  | 0 => 0
  | n + 1 => sumTo f n + f n

/-- The entries of `INPUT_COEFFICIENTS` (feedforward filter taps `a[0..8]`). -/
def aCoef : ℕ → ℚ
  | 0 => -9341062898525 / 10 ^ 15
  | 1 => -25470289659360 / 10 ^ 15
  | 2 => -4235264826105 / 10 ^ 15
  | 3 => 44152415456420 / 10 ^ 15
  | 4 => 36493718347760 / 10 ^ 15
  | 5 => -11893961934740 / 10 ^ 15
  | 6 => -22917390623150 / 10 ^ 15
  | 7 => -6788163862310 / 10 ^ 15
  | _ => 0

/-- The entries of `OUTPUT_COEFFICIENTS` (feedback filter taps `b[0..8]`). -/
def bCoef : ℕ → ℚ
  | 0 => 1
  | 1 => -363367395910957 / 10 ^ 14
  | 2 => 503689812757486 / 10 ^ 14
  | 3 => -309612247819666 / 10 ^ 14
  | 4 => 50620507633883 / 10 ^ 14
  | 5 => 32421701566682 / 10 ^ 14
  | 6 => -15685485875559 / 10 ^ 14
  | 7 => 1949130205890 / 10 ^ 14
  | _ => 0

/-- The post-filter scaling constant `(3.0/4096.0)/(2.6/256.0)*237.5` of the
source, with the decimal literals read exactly; it equals `7125/416`. -/
def countScale : ℚ := 3 / 4096 / (26 / 10 / 256) * (4750 / 20)

/-- The exact rational value of the float64 constant `np.pi`. -/
def npPi : ℚ := 884279719003555 / 281474976710656

/-- Round a rational to the nearest integer, ties to even: the rounding mode
of `np.round`. -/
def roundHE (s : ℚ) : ℤ :=
  if s - ⌊s⌋ < 1 / 2 then ⌊s⌋
  else if s - ⌊s⌋ > 1 / 2 then ⌊s⌋ + 1
  else if Even ⌊s⌋ then ⌊s⌋ else ⌊s⌋ + 1

/-- The 3-decimal rounding `np.round(x * 1000) / 1000` of the source. -/
def round3 (q : ℚ) : ℚ := (roundHE (q * 1000) : ℚ) / 1000

/-- Conversion of a float to int by `astype(int)`: truncation toward zero. -/
def truncQ (q : ℚ) : ℤ := if 0 ≤ q then ⌊q⌋ else ⌈q⌉

/-- The resampling-factor table `_factors` of the source. -/
def factors (frequency : ℕ) : ℕ × ℕ :=
  if frequency = 30 then (1, 1)
  else if frequency = 40 then (3, 4)
  else if frequency = 50 then (3, 5)
  else if frequency = 60 then (1, 2)
  else if frequency = 70 then (3, 7)
  else if frequency = 80 then (3, 8)
  else if frequency = 90 then (1, 3)
  else if frequency = 100 then (3, 10)
  else (1, 1)

/-- The frequencies accepted by the `assert` in `get_counts`
(`range(30, 101, 10)`). -/
def supportedFreqs : List ℕ := [30, 40, 50, 60, 70, 80, 90, 100]

/-- Python-style list indexing where index `-1` wraps to the last element;
used to embed the accesses `upsample_data[0, i-2]` of `_extract_slow`, whose
index is `-1` when `i = 1`. -/
def pyGet (xs : List ℚ) (j : ℤ) : ℚ :=
  if 0 ≤ j then xs.getD j.toNat 0 else xs.getD (xs.length - (-j).toNat) 0

/-- Zero-stuffing upsampling by factor `L`: an array of length `len·L` whose
positions `i·L` hold the samples and all other positions hold zero. -/
def upsample (xs : List ℚ) (L : ℕ) : List ℚ :=
  (List.range (xs.length * L)).map (fun i => if i % L = 0 then xs.getD (i / L) 0 else 0)

/-- The single-pole low-pass recurrence of `_extract_slow`:
`lpf[i] = aL·up[i-1] + aL·up[i-2] - b·lpf[i-1]` with `lpf[0] = 0`.
`L` is the upsampling factor. -/
def lpfVal (up : List ℚ) (L : ℕ) : ℕ → ℚ
  | 0 => 0
  | i + 1 =>
    npPi / (npPi + 2 * L) * L * pyGet up i +
      npPi / (npPi + 2 * L) * L * pyGet up ((i : ℤ) - 1) -
      (npPi - 2 * L) / (npPi + 2 * L) * lpfVal up L i

/-- The low-pass filtered upsampled array of `_extract_slow` (length `len·L`,
after the leading recursion seed is dropped by `lpf_upsample_data[:, 1:]`). -/
def lpfSlow (up : List ℚ) (L : ℕ) : List ℚ :=
  ((List.range (up.length + 1)).map (lpfVal up L)).drop 1

/-- The rate-conversion stage of `_extract_slow` on one channel: upsample,
low-pass (only for frequencies outside `{30, 60, 90}`), downsample to
`⌊len·L/M⌋` samples, and round to 3 decimals. -/
def downsampleSlow (xs : List ℚ) (frequency : ℕ) : List ℚ :=
  let L := (factors frequency).1
  let M := (factors frequency).2
  let dn :=
    if frequency = 30 then xs
    else if frequency = 60 ∨ frequency = 90 then
      (List.range (xs.length * L / M)).map (fun i => (upsample xs L).getD (i * M) 0)
    else
      (List.range (xs.length * L / M)).map (fun i => (lpfSlow (upsample xs L) L).getD (i * M) 0)
  dn.map round3

/-- One step of the shift-register band-pass filter of `_extract_slow`.  The
state is the pair of 9-place input and output shift registers; the result
pairs the new state with the produced output sample. -/
def bpfStep (x : ℚ) (s : List ℚ × List ℚ) : (List ℚ × List ℚ) × ℚ :=
  let rin := x :: s.1.take 8
  let zc := sumTo (fun k => aCoef k * rin.getD k 0) 8
  let pc := sumTo (fun k => bCoef (k + 1) * s.2.getD k 0) 7
  let y := zc - pc
  ((rin, y :: s.2.take 8), y)

/-- The filter warm-up of `_extract_slow`: starting from zeroed shift
registers, run the filter `n` times on the constant sample `x`
(the source uses `n = 180 * 6 = 1080` and `x = down_sample_data[0, 0]`). -/
def warm (x : ℚ) (n : ℕ) : List ℚ × List ℚ :=
  (fun s => (bpfStep x s).1)^[n] (List.replicate 9 0, List.replicate 9 0)

/-- The main filtering loop of `_extract_slow`: run the shift-register filter
over the samples from a given state, collecting the outputs. -/
def bpfRun (s : List ℚ × List ℚ) : List ℚ → List ℚ
  | [] => []
  | x :: xs => (bpfStep x s).2 :: bpfRun (bpfStep x s).1 xs

/-- The loop-based threshold/trim stage of `_extract_slow`. -/
def trimSlow (lfe : Bool) (v : ℚ) : ℚ :=
  if lfe then
    if |v| > 128 then 128
    else if |v| < 1 then 0
    else if |v| < 4 then (⌊|v|⌋ : ℚ) - 1
    else (⌊|v|⌋ : ℚ)
  else
    if |v| > 128 then 128
    else if |v| < 4 then 0
    else (⌊|v|⌋ : ℚ)

/-- The loop-based 10 Hz decimation of `_extract_slow`:
`⌊len/3⌋` windows, each reduced to `floor(nanmean(window))`. -/
def decimate10Slow (tr : List ℚ) : List ℚ :=
  (List.range (tr.length / 3)).map (fun k =>
    ((⌊(tr.getD (3 * k) 0 + tr.getD (3 * k + 1) 0 + tr.getD (3 * k + 2) 0) / 3⌋ : ℤ) : ℚ))

/-- The loop-based epoch accumulator of `_extract_slow`: `⌊len/(epoch·10)⌋`
windows of `epoch·10` samples, each reduced to `floor(sum(window))`. -/
def epochSumSlow (d10 : List ℚ) (epoch : ℕ) : List ℚ :=
  (List.range (d10.length / (epoch * 10))).map (fun i =>
    ((⌊sumTo (fun t => d10.getD (i * (epoch * 10) + t) 0) (epoch * 10)⌋ : ℤ) : ℚ))

/-- The whole reference pipeline `_extract_slow` on one channel.  The filter
warm-up reads the first downsampled sample, so an empty series is an index
error in the source, embedded as `none`. -/
def extractSlow (xs : List ℚ) (frequency : ℕ) (lfe : Bool) (epoch : ℕ) : Option (List ℚ) :=
  match downsampleSlow xs frequency with
  | [] => none
  | x0 :: rest =>
    let ys := bpfRun (warm x0 1080) (x0 :: rest)
    let tr := (ys.map (fun y => countScale * y)).map (trimSlow lfe)
    some (epochSumSlow (decimate10Slow tr) epoch)

/-- Rotation by one position toward higher indices, as `np.roll(v, 1)`. -/
def npRoll1 (xs : List ℚ) : List ℚ :=
  match xs.getLast? with
  | none => []
  | some l => l :: xs.dropLast

/-- The vectorized low-pass recurrence of `_resample`: after the zero column
is stacked in front, `v[i] += -b·v[i-1]` running left to right, with the
leading zero dropped again afterwards. -/
def lpfFastScan (b : ℚ) : ℚ → List ℚ → List ℚ
  | _, [] => []
  | prev, x :: xs => (x - b * prev) :: lpfFastScan b (x - b * prev) xs

/-- Strided selection `xs[::M]` of numpy on a length-`len` array:
`⌈len/M⌉` elements at indices `0, M, 2M, …`. -/
def strideSel (xs : List ℚ) (M : ℕ) : List ℚ :=
  (List.range ((xs.length + M - 1) / M)).map (fun i => xs.getD (i * M) 0)

/-- The vectorized rate-conversion `_resample` on one channel (one row of the
transposed raw matrix). -/
def resampleFast (xs : List ℚ) (frequency : ℕ) : List ℚ :=
  let L := (factors frequency).1
  let M := (factors frequency).2
  let up := upsample xs L
  let dn :=
    if frequency = 30 then xs
    else if frequency = 60 ∨ frequency = 90 then strideSel up M
    else
      let u2 := List.zipWith (fun a b => npPi / (npPi + 2 * L) * L * (a + b)) up (npRoll1 up)
      strideSel (lpfFastScan ((npPi - 2 * L) / (npPi + 2 * L)) 0 u2) M
  dn.map round3

/-- The exact rational solution of the linear system solved by
`scipy.signal.lfilter_zi(a, b)` for the frozen coefficients: the
direct-form-II-transposed initial state whose response to the constant
input 1 is stationary.  Certified by `ziVec_solves_lfilter_zi_system`. -/
def ziVec : List ℚ :=
  [5986708752882750736219 / 640902310360000000000000,
   8581029379404596345989 / 246500888600000000000000,
   1955083374766653401291 / 50070492996875000000000,
   -81807943828402230753 / 16022557759000000000000,
   -66653065440226995536167 / 1602255775900000000000000,
   -47595896264376793238083 / 1602255775900000000000000,
   -10876374754192719610439 / 1602255775900000000000000,
   0]

/-- One step of `scipy.signal.lfilter` in direct form II transposed, the
recurrence scipy implements: `y = b₀x + z₀` and
`zₖ ← bₖ₊₁x + zₖ₊₁ - aₖ₊₁y` (here the numerator taps are `aCoef` and the
denominator taps are `bCoef`, matching the call in `_bpf_filter`). -/
def df2tStep (x : ℚ) (z : List ℚ) : List ℚ × ℚ :=
  let y := aCoef 0 * x + z.getD 0 0
  ((List.range 8).map (fun k => aCoef (k + 1) * x + z.getD (k + 1) 0 - bCoef (k + 1) * y), y)

/-- Run the scipy filter over a sample list from a given state, collecting
the outputs. -/
def df2tRun (z : List ℚ) : List ℚ → List ℚ
  | [] => []
  | x :: xs => (df2tStep x z).2 :: df2tRun (df2tStep x z).1 xs

/-- The filter-and-rescale stage `_bpf_filter` on one already-resampled
channel: scipy filtering from the steady state `zi` scaled by the first
sample, then multiplication by the count scale.  The scaling step reads
column 0, so channel emptiness is checked at the matrix level. -/
def bpfFast (dn : List ℚ) : List ℚ :=
  (df2tRun (ziVec.map (fun z => z * dn.headD 0)) dn).map (fun y => countScale * y)

/-- The vectorized threshold/trim stage `_trim_data`, as the per-element
effect of its sequence of masked assignments.  In the LFE branch the first
masked assignment has an unsatisfiable mask `(v < 1) ∧ (v ≥ 4)` and is kept
here verbatim. -/
def trimFast (lfe : Bool) (v : ℚ) : ℚ :=
  if lfe then
    let u := |v|
    let u1 := if u < 1 ∧ 4 ≤ u then 0 else u
    let u2 := if u1 > 128 then 128 else u1
    let u3 := if u2 < 4 ∧ 1 ≤ u2 then |u2| - 1 else u2
    ((⌊u3⌋ : ℤ) : ℚ)
  else
    let u := |v|
    let u1 := if u < 4 then 0 else u
    let u2 := if u1 > 128 then 128 else u1
    ((⌊u2⌋ : ℤ) : ℚ)

/-- Running cumulative sums, as `np.cumsum` along the last axis. -/
def cumsum (xs : List ℚ) : List ℚ :=
  (List.range xs.length).map (fun i => sumTo (fun j => xs.getD j 0) (i + 1))

/-- The cumulative-sum 10 Hz decimation `_resample_10hz`: difference of
cumulative sums three apart, every third element starting at index 2,
divided by 3 and floored. -/
def resample10hz (tr : List ℚ) : List ℚ :=
  let cs := cumsum tr
  let d2 := (List.range cs.length).map (fun i =>
    if 3 ≤ i then cs.getD i 0 - cs.getD (i - 3) 0 else cs.getD i 0)
  (List.range (tr.length / 3)).map (fun k => ((⌊d2.getD (3 * k + 2) 0 / 3⌋ : ℤ) : ℚ))

/-- The cumulative-sum epoch accumulator `_sum_counts` with block size
`epoch·10`. -/
def sumCounts (d10 : List ℚ) (epoch : ℕ) : List ℚ :=
  let K := epoch * 10
  let cs := cumsum d10
  let d2 := (List.range cs.length).map (fun i =>
    if K ≤ i then cs.getD i 0 - cs.getD (i - K) 0 else cs.getD i 0)
  (List.range (d10.length / K)).map (fun j => ((⌊d2.getD (K * j + (K - 1)) 0⌋ : ℤ) : ℚ))

/-- Transposition of a rectangular matrix stored as a list of rows, as
`np.transpose`. -/
def transposeRect (xss : List (List ℚ)) : List (List ℚ) :=
  (List.range (xss.headD []).length).map (fun j => xss.map (fun r => r.getD j 0))

/-- The per-channel tail of the fast pipeline after rate conversion:
filter, trim, decimate to 10 Hz, accumulate epochs. -/
def fastTail (dn : List ℚ) (lfe : Bool) (epoch : ℕ) : List ℚ :=
  sumCounts (resample10hz ((bpfFast dn).map (trimFast lfe))) epoch

/-- The vectorized pipeline `_extract` on a raw matrix (rows are samples):
transpose to channels, rate-convert each channel, then filter, trim,
decimate and accumulate all channels.  `_bpf_filter` reads the first column
of the resampled matrix, which is an index error when there are no columns
(and a `(3, 0)`-shaped transpose also has no first column), embedded as
`none`. -/
def extractFast (raw : List (List ℚ)) (frequency : ℕ) (lfe : Bool) (epoch : ℕ) :
    Option (List (List ℚ)) :=
  let ds := (transposeRect raw).map (fun c => resampleFast c frequency)
  if ds.isEmpty ∨ ds.any List.isEmpty then none
  else some (ds.map (fun dn => fastTail dn lfe epoch))

/-- Column `j` of the raw matrix, as the slicing `raw[0:len(raw), [j]]` of
`get_counts`: an index error when some row is too short. -/
def col (raw : List (List ℚ)) (j : ℕ) : Option (List ℚ) :=
  if raw.all (fun r => j < r.length) then some (raw.map (fun r => r.getD j 0)) else none

/-- The slow (`fast=False`) branch of `get_counts`: extract the three
columns, run `_extract_slow` on each with `lfe_select=False`, and assemble
the rows. -/
def slowBranch (raw : List (List ℚ)) (frequency : ℕ) (epoch : ℕ) : Option (List (List ℤ)) :=
  match col raw 0, col raw 1, col raw 2 with
  | some x, some y, some z =>
    match extractSlow x frequency false epoch, extractSlow y frequency false epoch,
        extractSlow z frequency false epoch with
    | some cx, some cy, some cz =>
      some ((List.range cx.length).map (fun i =>
        [truncQ (cx.getD i 0), truncQ (cy.getD i 0), truncQ (cz.getD i 0)]))
    | _, _, _ => none
  | _, _, _ => none

/-- The entry point `get_counts(raw, freq, epoch, fast)`.  The `assert` on
the frequency is embedded as `none`; both branches pass `lfe_select=False`
to the extraction, exactly as the source does; the final `astype(int)`
truncates toward zero. -/
def getCounts (raw : List (List ℚ)) (freq : ℕ) (epoch : ℕ) (fast : Bool) :
    Option (List (List ℤ)) :=
  if freq ∈ supportedFreqs then
    if fast then
      (extractFast raw freq false epoch).map
        (fun chs => (transposeRect chs).map (fun row => row.map truncQ))
    else slowBranch raw freq epoch
  else none


/-- The theoretical steady-state output of the band-pass filter per unit of
constant input: the DC gain `(Σa)/(1 + Σb)` of the recurrence; it equals
`-1/16022557759`. -/
def steadyGain : ℚ := sumTo aCoef 8 / (1 + sumTo (fun k => bCoef (k + 1)) 7)

/-- The steady state of the shift-register filter for the constant input
`x`: input register saturated with `x`, output register saturated with the
steady output `x · steadyGain`.  `bpfStep_steady` proves it is a fixed
point. -/
def steadyState (x : ℚ) : List ℚ × List ℚ :=
  (List.replicate 9 x, List.replicate 9 (x * steadyGain))

/-- Proof device: the output-register recurrence of the warm-up loop once
the input shift register is saturated with the constant sample 1. -/
def outStep (r : List ℚ) : List ℚ :=
  (sumTo aCoef 8 - sumTo (fun k => bCoef (k + 1) * r.getD k 0) 7) :: r.take 8

/-- Proof device: 10-dimensional matrix-vector product. -/
def matVec (A : List (List ℚ)) (w : List ℚ) : List ℚ :=
  (List.range 10).map (fun i => sumTo (fun j => (A.getD i []).getD j 0 * w.getD j 0) 10)

/-- Proof device: 10-dimensional matrix product. -/
def matMul (A B : List (List ℚ)) : List (List ℚ) :=
  (List.range 10).map (fun i => (List.range 10).map (fun j =>
    sumTo (fun k => (A.getD i []).getD k 0 * (B.getD k []).getD j 0) 10))

/-- Proof device: the warm-up output recurrence `outStep` as an affine map
on `r ++ [1]` (the last component carries the constant 1); row 0 holds the
negated feedback taps and the feedforward sum `Σa = -1/10^14`. -/
def warmMat : List (List ℚ) :=
  [[363367395910957 / 10 ^ 14, -503689812757486 / 10 ^ 14, 309612247819666 / 10 ^ 14,
    -50620507633883 / 10 ^ 14, -32421701566682 / 10 ^ 14, 15685485875559 / 10 ^ 14,
    -1949130205890 / 10 ^ 14, 0, 0, -1 / 10 ^ 14],
   [1, 0, 0, 0, 0, 0, 0, 0, 0, 0],
   [0, 1, 0, 0, 0, 0, 0, 0, 0, 0],
   [0, 0, 1, 0, 0, 0, 0, 0, 0, 0],
   [0, 0, 0, 1, 0, 0, 0, 0, 0, 0],
   [0, 0, 0, 0, 1, 0, 0, 0, 0, 0],
   [0, 0, 0, 0, 0, 1, 0, 0, 0, 0],
   [0, 0, 0, 0, 0, 0, 1, 0, 0, 0],
   [0, 0, 0, 0, 0, 0, 0, 1, 0, 0],
   [0, 0, 0, 0, 0, 0, 0, 0, 0, 1]]

/-- Proof device: iterated squares of `warmMat`, so that `Spow k` represents
the `2^k`-th power of the affine warm-up step. -/
def Spow : ℕ → List (List ℚ)
  | 0 => warmMat
  | k + 1 => matMul (Spow k) (Spow k)

/-- The exact output shift register after the first nine warm-up iterations
on the constant sample 1 (certified by `warm_nine`). -/
def rNine : List ℚ :=
  [-902241257840784190854920555601522399494893639205769663191502504829826454812083858281807386326275375574122334397660914304881541 / 400000000000000000000000000000000000000000000000000000000000000000000000000000000000000000000000000000000000000000000000000000,
   -8301455612364699134072148368115226699470960713013821701065899013671919034379049343633323500414392770202797936313 / 4000000000000000000000000000000000000000000000000000000000000000000000000000000000000000000000000000000000000000,
   -71428320104494136287834975142882512284337700987077988325563412862841708596197993718491410244706109 / 40000000000000000000000000000000000000000000000000000000000000000000000000000000000000000000000000,
   -561142369195728383842364132269916426024360140301044516934258956844225005608821165137 / 400000000000000000000000000000000000000000000000000000000000000000000000000000000000,
   -3878516551273928184228000222377026127661670235433363075531562374578741 / 4000000000000000000000000000000000000000000000000000000000000000000000,
   -22248957522722830985994004153308900613688320453807375913 / 40000000000000000000000000000000000000000000000000000000,
   -96730108745739737257672358749513989388909 / 400000000000000000000000000000000000000000,
   -275014918250639409089065537 / 4000000000000000000000000000,
   -373642515941 / 40000000000000]

/-- Proof device: the matrix-power form of the 1071 warm-up iterations that
follow the first nine (`1071 = 1 + 2 + 4 + 8 + 32 + 1024`). -/
def warmTailChain : List ℚ :=
  matVec warmMat (matVec (Spow 1) (matVec (Spow 2) (matVec (Spow 3)
    (matVec (Spow 5) (matVec (Spow 10) (rNine ++ [1]))))))

/-! ### Generic helper lemmas -/

theorem rangeMap_getD (n : ℕ) (f : ℕ → ℚ) (i : ℕ) :
    ((List.range n).map f).getD i 0 = if i < n then f i else 0 := by
  by_cases h : i < n
  · simp [List.getD_eq_getElem?_getD, List.getElem?_map, List.getElem?_range h, h]
  · simp [List.getD_eq_getElem?_getD, List.getElem?_eq_none, h, Nat.le_of_not_lt h]

theorem getD_eq_zero_of_le {l : List ℚ} {i : ℕ} (h : l.length ≤ i) : l.getD i 0 = 0 := by
  simp [List.getD_eq_getElem?_getD, List.getElem?_eq_none h]

theorem sumTo_eq_sum (f : ℕ → ℚ) (n : ℕ) : sumTo f n = ∑ i ∈ Finset.range n, f i := by
  induction n with
  | zero => simp [sumTo]
  | succ n ih => simp [sumTo, ih, Finset.sum_range_succ]

theorem sumTo_add (f : ℕ → ℚ) (m n : ℕ) :
    sumTo f (m + n) = sumTo f m + sumTo (fun t => f (m + t)) n := by
  induction n with
  | zero => simp [sumTo]
  | succ n ih => simpa [sumTo, ← Nat.add_assoc, ih] using by ring

theorem sumTo_mul (c : ℚ) (f : ℕ → ℚ) (n : ℕ) :
    sumTo (fun k => c * f k) n = c * sumTo f n := by
  induction n with
  | zero => simp [sumTo]
  | succ n ih => simp [sumTo, ih]; ring

theorem sumTo_congr {f g : ℕ → ℚ} (n : ℕ) (h : ∀ k < n, f k = g k) :
    sumTo f n = sumTo g n := by
  induction n with
  | zero => rfl
  | succ n ih =>
    simp only [sumTo, ih (fun k hk => h k (Nat.lt_succ_of_lt hk)), h n (Nat.lt_succ_self n)]

theorem sumTo_nonneg {f : ℕ → ℚ} (n : ℕ) (h : ∀ k < n, 0 ≤ f k) : 0 ≤ sumTo f n := by
  induction n with
  | zero => simp [sumTo]
  | succ n ih =>
    have := h n (Nat.lt_succ_self n)
    have := ih (fun k hk => h k (Nat.lt_succ_of_lt hk))
    simp only [sumTo]; linarith

theorem sumTo_le {f : ℕ → ℚ} {c : ℚ} (n : ℕ) (h : ∀ k < n, f k ≤ c) :
    sumTo f n ≤ n * c := by
  induction n with
  | zero => simp [sumTo]
  | succ n ih =>
    have h1 := h n (Nat.lt_succ_self n)
    have h2 := ih (fun k hk => h k (Nat.lt_succ_of_lt hk))
    simp only [sumTo]
    push_cast
    linarith

theorem getD_map_mul (c : ℚ) (l : List ℚ) (k : ℕ) :
    (l.map (fun v => c * v)).getD k 0 = c * l.getD k 0 := by
  induction l generalizing k with
  | nil => simp
  | cons x xs ih => cases k with
    | zero => simp
    | succ k => simpa using ih k

/-! ### Stage length lemmas -/

theorem upsample_length (xs : List ℚ) (L : ℕ) : (upsample xs L).length = xs.length * L := by
  simp [upsample]

theorem lpfSlow_length (up : List ℚ) (L : ℕ) : (lpfSlow up L).length = up.length := by
  simp [lpfSlow]

theorem bpfRun_length (s : List ℚ × List ℚ) (xs : List ℚ) :
    (bpfRun s xs).length = xs.length := by
  induction xs generalizing s with
  | nil => rfl
  | cons x xs ih => simp [bpfRun, ih]

theorem df2tRun_length (z : List ℚ) (xs : List ℚ) :
    (df2tRun z xs).length = xs.length := by
  induction xs generalizing z with
  | nil => rfl
  | cons x xs ih => simp [df2tRun, ih]

theorem lpfFastScan_length (b prev : ℚ) (xs : List ℚ) :
    (lpfFastScan b prev xs).length = xs.length := by
  induction xs generalizing prev with
  | nil => rfl
  | cons x xs ih => simp [lpfFastScan, ih]

theorem npRoll1_length (xs : List ℚ) : (npRoll1 xs).length = xs.length := by
  cases h : xs.getLast? with
  | none => simp [npRoll1, h, List.getLast?_eq_none_iff.mp h]
  | some l =>
    have : xs ≠ [] := by rintro rfl; simp at h
    have hp : 0 < xs.length := List.length_pos.mpr this
    simp [npRoll1, h, List.length_dropLast]
    omega

theorem strideSel_length (xs : List ℚ) (M : ℕ) :
    (strideSel xs M).length = (xs.length + M - 1) / M := by
  simp [strideSel]

/-- The lengths of the two rate converters: the reference path keeps
`⌊N·L/M⌋` samples, the vectorized path `⌈N·L/M⌉`. -/
theorem downsampleSlow_length (xs : List ℚ) (freq : ℕ) :
    (downsampleSlow xs freq).length =
      if freq = 30 then xs.length
      else xs.length * (factors freq).1 / (factors freq).2 := by
  simp only [downsampleSlow]
  split
  · simp [*]
  · split <;> simp

theorem resampleFast_length (xs : List ℚ) (freq : ℕ) :
    (resampleFast xs freq).length =
      if freq = 30 then xs.length
      else (xs.length * (factors freq).1 + (factors freq).2 - 1) / (factors freq).2 := by
  simp only [resampleFast]
  split
  · simp [*]
  · split
    · simp [strideSel_length, upsample_length]
    · simp [strideSel_length, lpfFastScan_length, List.length_zipWith, npRoll1_length,
        upsample_length]

theorem decimate10Slow_length (tr : List ℚ) :
    (decimate10Slow tr).length = tr.length / 3 := by simp [decimate10Slow]

theorem epochSumSlow_length (d10 : List ℚ) (epoch : ℕ) :
    (epochSumSlow d10 epoch).length = d10.length / (epoch * 10) := by simp [epochSumSlow]

theorem resample10hz_length (tr : List ℚ) :
    (resample10hz tr).length = tr.length / 3 := by simp [resample10hz]

theorem sumCounts_length (d10 : List ℚ) (epoch : ℕ) :
    (sumCounts d10 epoch).length = d10.length / (epoch * 10) := by simp [sumCounts]

theorem cumsum_length (xs : List ℚ) : (cumsum xs).length = xs.length := by simp [cumsum]


theorem trimSlow_false_canon (v : ℚ) :
    trimSlow false v =
      if 128 < |v| then 128 else if |v| < 4 then 0 else ((⌊|v|⌋ : ℤ) : ℚ) := by
  simp [trimSlow]

theorem trimSlow_true_canon (v : ℚ) :
    trimSlow true v =
      if 128 < |v| then 128
      else if |v| < 1 then 0
      else if |v| < 4 then ((⌊|v|⌋ : ℤ) : ℚ) - 1
      else ((⌊|v|⌋ : ℤ) : ℚ) := by
  simp [trimSlow]

theorem trimFast_false_eq (v : ℚ) : trimFast false v = trimSlow false v := by
  rw [trimSlow_false_canon]
  simp only [trimFast, Bool.false_eq_true, if_false]
  by_cases h4 : |v| < 4
  · have h128 : ¬ (128 : ℚ) < |v| := by linarith
    rw [if_pos h4, if_neg (show ¬ (128 : ℚ) < (0 : ℚ) by norm_num), if_neg h128, if_pos h4]
    norm_num
  · rw [if_neg h4]
    by_cases h128 : (128 : ℚ) < |v|
    · rw [if_pos h128, if_pos h128]
      norm_num
    · rw [if_neg h128, if_neg h128, if_neg h4]

theorem trimFast_true_eq (v : ℚ) : trimFast true v = trimSlow true v := by
  rw [trimSlow_true_canon]
  simp only [trimFast, if_true]
  have habs : (0 : ℚ) ≤ |v| := abs_nonneg v
  rw [if_neg (show ¬ (|v| < 1 ∧ 4 ≤ |v|) by rintro ⟨a, b⟩; linarith)]
  by_cases h128 : (128 : ℚ) < |v|
  · rw [if_pos h128, if_pos h128,
      if_neg (show ¬ ((128 : ℚ) < 4 ∧ (1 : ℚ) ≤ 128) by norm_num)]
    norm_num
  · rw [if_neg h128, if_neg h128]
    by_cases h1 : |v| < 1
    · rw [if_pos h1, if_neg (show ¬ (|v| < 4 ∧ 1 ≤ |v|) by rintro ⟨_, c⟩; linarith)]
      have h0 : ⌊|v|⌋ = 0 := Int.floor_eq_zero_iff.mpr (Set.mem_Ico.mpr ⟨habs, h1⟩)
      rw [h0]
      norm_num
    · push_neg at h1
      rw [if_neg (not_lt.mpr h1)]
      by_cases h4 : |v| < 4
      · rw [if_pos (show |v| < 4 ∧ 1 ≤ |v| from ⟨h4, h1⟩), if_pos h4, abs_of_nonneg habs]
        rw [show |v| - 1 = |v| - ((1 : ℤ) : ℚ) by norm_num, Int.floor_sub_int]
        push_cast
        ring
      · rw [if_neg (show ¬ (|v| < 4 ∧ 1 ≤ |v|) by rintro ⟨c, _⟩; exact h4 c), if_neg h4]

theorem trimSlow_bounds (lfe : Bool) (v : ℚ) :
    0 ≤ trimSlow lfe v ∧ trimSlow lfe v ≤ 128 := by
  have habs : (0 : ℚ) ≤ |v| := abs_nonneg v
  have hnn : (0 : ℤ) ≤ ⌊|v|⌋ := Int.floor_nonneg.mpr habs
  cases lfe
  · rw [trimSlow_false_canon]
    split_ifs with h128 h4
    · norm_num
    · norm_num
    · push_neg at h128
      refine ⟨by exact_mod_cast hnn, le_trans (Int.floor_le _) h128⟩
  · rw [trimSlow_true_canon]
    split_ifs with h128 h1 h4
    · norm_num
    · norm_num
    · push_neg at h128 h1
      have hge : (1 : ℤ) ≤ ⌊|v|⌋ := by rw [Int.le_floor]; exact_mod_cast h1
      have hle : ((⌊|v|⌋ : ℤ) : ℚ) ≤ 128 := le_trans (Int.floor_le _) h128
      constructor
      · have : (1 : ℚ) ≤ ((⌊|v|⌋ : ℤ) : ℚ) := by exact_mod_cast hge
        linarith
      · linarith
    · push_neg at h128
      exact ⟨by exact_mod_cast hnn, le_trans (Int.floor_le _) h128⟩

/-! ### Cumulative-sum block reduction equals direct window summation -/

theorem window_index_lt {len K j : ℕ} (hK : 1 ≤ K) (hj : j < len / K) :
    K * j + (K - 1) < len := by
  have h1 : (j + 1) * K ≤ (len / K) * K := Nat.mul_le_mul_right K hj
  have h2 : (len / K) * K ≤ len := Nat.div_mul_le_self len K
  have h3 := le_trans h1 h2
  have h4 : j * K + K ≤ len := by nlinarith
  have h5 : K * j = j * K := Nat.mul_comm K j
  omega

theorem cumsum_getD {xs : List ℚ} {i : ℕ} (h : i < xs.length) :
    (cumsum xs).getD i 0 = sumTo (fun j => xs.getD j 0) (i + 1) := by
  simp [cumsum, rangeMap_getD, h]

/-- The difference-of-cumulative-sums value that the vectorized block
reducers read at position `K·j + (K-1)` equals the direct sum of window `j`. -/
theorem cumsum_window (xs : List ℚ) (K j : ℕ) (hK : 1 ≤ K) (hj : j < xs.length / K) :
    (if K ≤ K * j + (K - 1) then
        (cumsum xs).getD (K * j + (K - 1)) 0 - (cumsum xs).getD (K * j + (K - 1) - K) 0
      else (cumsum xs).getD (K * j + (K - 1)) 0) =
      sumTo (fun t => xs.getD (K * j + t) 0) K := by
  have hlt : K * j + (K - 1) < xs.length := window_index_lt hK hj
  have hKK : K * j + (K - 1) + 1 = K * j + K := by omega
  rcases Nat.eq_zero_or_pos j with rfl | hjpos
  · have hcond : ¬ K ≤ K * 0 + (K - 1) := by omega
    rw [if_neg hcond, cumsum_getD hlt, hKK]
    simp
  · have hcond : K ≤ K * j + (K - 1) := by
      have : K ≤ K * j := Nat.le_mul_of_pos_right K hjpos
      omega
    rw [if_pos hcond, cumsum_getD hlt]
    have hsub : K * j + (K - 1) - K = K * j - 1 := by omega
    have hKj1 : 1 ≤ K * j := by
      have : K ≤ K * j := Nat.le_mul_of_pos_right K hjpos
      omega
    have hlt2 : K * j - 1 < xs.length := by omega
    rw [hsub, cumsum_getD hlt2]
    have h1 : K * j - 1 + 1 = K * j := by omega
    rw [h1, hKK, sumTo_add]
    ring

/-- The cumulative-sum 10 Hz decimation agrees with the loop-based one. -/
theorem resample10hz_eq_decimate (tr : List ℚ) : resample10hz tr = decimate10Slow tr := by
  simp only [resample10hz, decimate10Slow]
  apply List.map_congr_left
  intro j hj
  rw [List.mem_range] at hj
  have h2 : (3 : ℕ) * j + 2 = 3 * j + (3 - 1) := by omega
  have hlen : (cumsum tr).length = tr.length := cumsum_length tr
  have hlt : 3 * j + (3 - 1) < tr.length := window_index_lt (by norm_num) hj
  rw [h2, rangeMap_getD, hlen, if_pos hlt, cumsum_window tr 3 j (by norm_num) hj]
  have h3 : sumTo (fun t => tr.getD (3 * j + t) 0) 3 =
      tr.getD (3 * j) 0 + tr.getD (3 * j + 1) 0 + tr.getD (3 * j + 2) 0 := by
    simp [sumTo]
  rw [h3]

/-- The cumulative-sum epoch accumulator agrees with the loop-based one. -/
theorem sumCounts_eq_epochSumSlow (d10 : List ℚ) (epoch : ℕ) (he : 1 ≤ epoch) :
    sumCounts d10 epoch = epochSumSlow d10 epoch := by
  simp only [sumCounts, epochSumSlow]
  apply List.map_congr_left
  intro j hj
  rw [List.mem_range] at hj
  have hK : 1 ≤ epoch * 10 := by omega
  have hlen : (cumsum d10).length = d10.length := cumsum_length d10
  have hlt : epoch * 10 * j + (epoch * 10 - 1) < d10.length := window_index_lt hK hj
  rw [rangeMap_getD, hlen, if_pos hlt, cumsum_window d10 (epoch * 10) j hK hj,
    Nat.mul_comm j (epoch * 10)]

/-! ### Claim C5: frequency 30 rate conversion is rounding only -/

/-- C5: for frequency 30 the rate-conversion stage of both pipelines returns
the input unchanged except for rounding every value to 3 decimal places
(no zero-stuffing, low-pass or downsampling affects the result). -/
theorem claim_C5 (xs : List ℚ) :
    downsampleSlow xs 30 = xs.map round3 ∧ resampleFast xs 30 = xs.map round3 := by
  constructor <;> rfl

/-! ### Claims C6 and C7: the two trim implementations -/

/-- C6: in standard mode the trimmed value of a filtered sample `f` is 128
when `|f| > 128`, 0 when `|f| < 4`, and `⌊|f|⌋` otherwise, and the
vectorized implementation computes the same elementwise map as the
loop-based one. -/
theorem claim_C6 (f : ℚ) :
    trimSlow false f =
      (if 128 < |f| then 128 else if |f| < 4 then 0 else ((⌊|f|⌋ : ℤ) : ℚ)) ∧
    trimFast false f = trimSlow false f :=
  ⟨trimSlow_false_canon f, trimFast_false_eq f⟩

/-- C7: in LFE mode the trimmed value of a filtered sample `f` is 128 when
`|f| > 128`, 0 when `|f| < 1`, `⌊|f|⌋ - 1` when `1 ≤ |f| < 4`, and `⌊|f|⌋`
otherwise, and the vectorized masked implementation computes the same
elementwise map as the loop-based one. -/
theorem claim_C7 (f : ℚ) :
    trimSlow true f =
      (if 128 < |f| then 128
       else if |f| < 1 then 0
       else if |f| < 4 then ((⌊|f|⌋ : ℤ) : ℚ) - 1
       else ((⌊|f|⌋ : ℤ) : ℚ)) ∧
    trimFast true f = trimSlow true f :=
  ⟨trimSlow_true_canon f, trimFast_true_eq f⟩

/-! ### Claim C8: cumulative-sum block reduction -/

/-- C8: the cumulative-sum block reductions (difference of running sums at
window boundaries, every K-th difference, floored) of `_resample_10hz`
(K = 3, with division by 3) and `_sum_counts` (K = epoch·10) produce exactly
the per-window results of the direct loop-based summations of
`_extract_slow`, discarding the trailing remainder. -/
theorem claim_C8 :
    (∀ tr : List ℚ, resample10hz tr = decimate10Slow tr) ∧
      ∀ (d10 : List ℚ) (epoch : ℕ), 1 ≤ epoch →
        sumCounts d10 epoch = epochSumSlow d10 epoch :=
  ⟨resample10hz_eq_decimate, sumCounts_eq_epochSumSlow⟩

theorem claim_C8_witness :
    (1 : ℕ) ≤ 1 ∧
      sumCounts [5/2, 3, 7/2, 1, 0, 2, 9, 8, 7, 6, 1, 2] 1 =
        epochSumSlow [5/2, 3, 7/2, 1, 0, 2, 9, 8, 7, 6, 1, 2] 1 :=
  ⟨by decide, claim_C8.2 [5/2, 3, 7/2, 1, 0, 2, 9, 8, 7, 6, 1, 2] 1 (by decide)⟩

/-! ### Claim C2: empty input -/

/-- C2 counterexample: on the empty raw series the entry point does not
return a zero-row matrix; in both modes it fails (the filter stage reads the
first sample, an index error embedded as `none`). -/
theorem claim_C2_counterexample :
    getCounts [] 30 1 true = none ∧ getCounts [] 30 1 false = none := by
  constructor <;> decide

/-- C2 as amended: for every supported frequency, epoch length and mode, the
empty raw series makes `get_counts` fail with an index error (`none`); it
never returns a zero-row matrix. -/
theorem claim_C2 (freq epoch : ℕ) (fast : Bool) (hf : freq ∈ supportedFreqs) :
    getCounts [] freq epoch fast = none := by
  fin_cases hf <;> cases fast <;>
    simp [getCounts, supportedFreqs, slowBranch, col, extractSlow, downsampleSlow,
      extractFast, transposeRect, upsample, lpfSlow]

theorem claim_C2_witness : 50 ∈ supportedFreqs ∧ getCounts [] 50 7 false = none :=
  ⟨by decide, claim_C2 50 7 false (by decide)⟩

/-! ### Zero propagation through every stage -/

theorem getD_zero_of_allZero {l : List ℚ} (h : ∀ v ∈ l, v = 0) (i : ℕ) :
    l.getD i 0 = 0 := by
  by_cases hi : i < l.length
  · have he : l.getD i 0 = l[i] := by
      simp [List.getD_eq_getElem?_getD, List.getElem?_eq_getElem hi]
    rw [he]
    exact h _ (List.getElem_mem hi)
  · exact getD_eq_zero_of_le (Nat.le_of_not_lt hi)

theorem sumTo_zero (n : ℕ) : sumTo (fun _ => (0 : ℚ)) n = 0 := by
  induction n with
  | zero => rfl
  | succ n ih => simp [sumTo, ih]

theorem round3_zero : round3 0 = 0 := by decide

theorem upsample_allZero {xs : List ℚ} (h : ∀ v ∈ xs, v = 0) (L : ℕ) :
    ∀ v ∈ upsample xs L, v = 0 := by
  intro v hv
  simp only [upsample, List.mem_map] at hv
  obtain ⟨i, _, rfl⟩ := hv
  by_cases hm : i % L = 0
  · rw [if_pos hm]
    exact getD_zero_of_allZero h _
  · rw [if_neg hm]

theorem pyGet_zero {xs : List ℚ} (h : ∀ v ∈ xs, v = 0) (j : ℤ) : pyGet xs j = 0 := by
  unfold pyGet
  split <;> exact getD_zero_of_allZero h _

theorem lpfVal_zero {up : List ℚ} (h : ∀ v ∈ up, v = 0) (L : ℕ) :
    ∀ i, lpfVal up L i = 0 := by
  intro i
  induction i with
  | zero => rfl
  | succ i ih => simp [lpfVal, ih, pyGet_zero h]

theorem lpfSlow_allZero {up : List ℚ} (h : ∀ v ∈ up, v = 0) (L : ℕ) :
    ∀ v ∈ lpfSlow up L, v = 0 := by
  intro v hv
  simp only [lpfSlow] at hv
  have hv2 := List.mem_of_mem_drop hv
  simp only [List.mem_map] at hv2
  obtain ⟨i, _, rfl⟩ := hv2
  exact lpfVal_zero h L i

theorem downsampleSlow_allZero {xs : List ℚ} (h : ∀ v ∈ xs, v = 0) (freq : ℕ) :
    ∀ v ∈ downsampleSlow xs freq, v = 0 := by
  intro v hv
  simp only [downsampleSlow, List.mem_map] at hv
  obtain ⟨w, hw, rfl⟩ := hv
  have hw0 : w = 0 := by
    split at hw
    · exact h w hw
    · split at hw
      · rcases List.mem_map.mp hw with ⟨i, _, rfl⟩
        exact getD_zero_of_allZero (upsample_allZero h _) _
      · rcases List.mem_map.mp hw with ⟨i, _, rfl⟩
        exact getD_zero_of_allZero (lpfSlow_allZero (upsample_allZero h _) _) _
  rw [hw0, round3_zero]

theorem bpfStep_zero :
    bpfStep 0 (List.replicate 9 0, List.replicate 9 0) =
      ((List.replicate 9 0, List.replicate 9 0), 0) := by decide

theorem warm_zero (n : ℕ) : warm 0 n = (List.replicate 9 0, List.replicate 9 0) :=
  Function.iterate_fixed (by rw [bpfStep_zero]) n

theorem bpfRun_allZero {xs : List ℚ} (h : ∀ v ∈ xs, v = 0) :
    bpfRun (List.replicate 9 0, List.replicate 9 0) xs = List.replicate xs.length 0 := by
  induction xs with
  | nil => rfl
  | cons x xs ih =>
    have hx : x = 0 := h x (List.mem_cons_self x xs)
    subst hx
    simp only [bpfRun, bpfStep_zero, List.length_cons, List.replicate_succ]
    exact congrArg _ (ih fun v hv => h v (List.mem_cons_of_mem _ hv))

theorem trimSlow_zero (lfe : Bool) : trimSlow lfe 0 = 0 := by cases lfe <;> decide

theorem trimFast_zero (lfe : Bool) : trimFast lfe 0 = 0 := by cases lfe <;> decide

theorem decimate10Slow_replicate_zero (m : ℕ) :
    decimate10Slow (List.replicate m 0) = List.replicate (m / 3) 0 := by
  refine List.eq_replicate_iff.mpr ⟨by simp [decimate10Slow], ?_⟩
  intro v hv
  simp only [decimate10Slow, List.length_replicate, List.mem_map] at hv
  obtain ⟨k, _, rfl⟩ := hv
  have hz : ∀ w ∈ (List.replicate m (0 : ℚ)), w = 0 := fun w hw => List.eq_of_mem_replicate hw
  simp [getD_zero_of_allZero hz]

theorem epochSumSlow_replicate_zero (m epoch : ℕ) :
    epochSumSlow (List.replicate m 0) epoch = List.replicate (m / (epoch * 10)) 0 := by
  refine List.eq_replicate_iff.mpr ⟨by simp [epochSumSlow], ?_⟩
  intro v hv
  simp only [epochSumSlow, List.length_replicate, List.mem_map] at hv
  obtain ⟨k, _, rfl⟩ := hv
  have hz : ∀ w ∈ (List.replicate m (0 : ℚ)), w = 0 := fun w hw => List.eq_of_mem_replicate hw
  have hs : sumTo (fun t => (List.replicate m (0 : ℚ)).getD (k * (epoch * 10) + t) 0) (epoch * 10) =
      sumTo (fun _ => (0 : ℚ)) (epoch * 10) :=
    sumTo_congr _ (fun t _ => getD_zero_of_allZero hz _)
  simp [hs, sumTo_zero]



theorem extractSlow_cons {xs : List ℚ} {freq : ℕ} {x0 : ℚ} {rest : List ℚ}
    (hd : downsampleSlow xs freq = x0 :: rest) (lfe : Bool) (epoch : ℕ) :
    extractSlow xs freq lfe epoch =
      some (epochSumSlow (decimate10Slow
        (((bpfRun (warm x0 1080) (x0 :: rest)).map (fun y => countScale * y)).map
          (trimSlow lfe))) epoch) := by
  unfold extractSlow
  rw [hd]

/-- The reference pipeline on an all-zero channel yields all-zero counts of
the expected number of epochs (when the resampled series is nonempty). -/
theorem extractSlow_allZero {xs : List ℚ} (h : ∀ v ∈ xs, v = 0) (freq : ℕ) (lfe : Bool)
    (epoch : ℕ) (hne : downsampleSlow xs freq ≠ []) :
    extractSlow xs freq lfe epoch =
      some (List.replicate ((downsampleSlow xs freq).length / 3 / (epoch * 10)) 0) := by
  obtain ⟨x0, rest, hd⟩ := List.exists_cons_of_ne_nil hne
  have hz : ∀ v ∈ downsampleSlow xs freq, v = 0 := downsampleSlow_allZero h freq
  have hx0 : x0 = 0 := hz x0 (hd ▸ List.mem_cons_self x0 rest)
  rw [extractSlow_cons hd]
  subst hx0
  have hzc : ∀ v ∈ (0 :: rest : List ℚ), v = 0 := hd ▸ hz
  rw [warm_zero, bpfRun_allZero hzc]
  simp only [List.map_replicate, mul_zero, trimSlow_zero, List.length_cons,
    decimate10Slow_replicate_zero, epochSumSlow_replicate_zero]
  rw [hd]
  simp

/-! ### Zero propagation, fast path -/

theorem npRoll1_allZero {xs : List ℚ} (h : ∀ v ∈ xs, v = 0) :
    ∀ v ∈ npRoll1 xs, v = 0 := by
  intro v hv
  unfold npRoll1 at hv
  split at hv
  · simp at hv
  · rename_i l hl
    rcases List.mem_cons.mp hv with rfl | hmem
    · obtain ⟨hne, hvl⟩ := List.mem_getLast?_eq_getLast hl
      rw [hvl]
      exact h _ (List.getLast_mem hne)
    · exact h v (List.dropLast_subset xs hmem)

theorem zipWith_allZero {f : ℚ → ℚ → ℚ} (hf : f 0 0 = 0) :
    ∀ {as bs : List ℚ}, (∀ v ∈ as, v = 0) → (∀ v ∈ bs, v = 0) →
      ∀ v ∈ List.zipWith f as bs, v = 0 := by
  intro as
  induction as with
  | nil => intro bs _ _ v hv; simp at hv
  | cons a as ih =>
    intro bs ha hb v hv
    cases bs with
    | nil => simp at hv
    | cons b bs =>
      rcases List.mem_cons.mp hv with rfl | hmem
      · rw [ha a (List.mem_cons_self a as), hb b (List.mem_cons_self b bs)]
        exact hf
      · exact ih (fun w hw => ha w (List.mem_cons_of_mem _ hw))
          (fun w hw => hb w (List.mem_cons_of_mem _ hw)) v hmem

theorem lpfFastScan_allZero (b : ℚ) {xs : List ℚ} (h : ∀ v ∈ xs, v = 0) :
    lpfFastScan b 0 xs = List.replicate xs.length 0 := by
  induction xs with
  | nil => rfl
  | cons x xs ih =>
    have hx : x = 0 := h x (List.mem_cons_self x xs)
    subst hx
    simp only [lpfFastScan, mul_zero, sub_zero, List.length_cons, List.replicate_succ]
    exact congrArg _ (ih fun v hv => h v (List.mem_cons_of_mem _ hv))

theorem strideSel_allZero {xs : List ℚ} (h : ∀ v ∈ xs, v = 0) (M : ℕ) :
    ∀ v ∈ strideSel xs M, v = 0 := by
  intro v hv
  rcases List.mem_map.mp hv with ⟨i, _, rfl⟩
  exact getD_zero_of_allZero h _

theorem resampleFast_allZero {xs : List ℚ} (h : ∀ v ∈ xs, v = 0) (freq : ℕ) :
    ∀ v ∈ resampleFast xs freq, v = 0 := by
  intro v hv
  simp only [resampleFast, List.mem_map] at hv
  obtain ⟨w, hw, rfl⟩ := hv
  have hw0 : w = 0 := by
    split at hw
    · exact h w hw
    · split at hw
      · exact strideSel_allZero (upsample_allZero h _) _ w hw
      · refine strideSel_allZero (fun u hu => ?_) _ w hw
        rw [lpfFastScan_allZero _
          (zipWith_allZero (by ring) (upsample_allZero h _) (npRoll1_allZero (upsample_allZero h _)))] at hu
        exact List.eq_of_mem_replicate hu
  rw [hw0, round3_zero]

theorem df2tStep_zero {z : List ℚ} (h : ∀ v ∈ z, v = 0) :
    (df2tStep 0 z).2 = 0 ∧ ∀ v ∈ (df2tStep 0 z).1, v = 0 := by
  constructor
  · show aCoef 0 * 0 + z.getD 0 0 = 0
    rw [getD_zero_of_allZero h]
    ring
  · intro v hv
    have hv2 : v ∈ (List.range 8).map (fun k =>
        aCoef (k + 1) * 0 + z.getD (k + 1) 0 -
          bCoef (k + 1) * (aCoef 0 * 0 + z.getD 0 0)) := hv
    rcases List.mem_map.mp hv2 with ⟨k, _, rfl⟩
    rw [getD_zero_of_allZero h, getD_zero_of_allZero h]
    ring

theorem df2tRun_allZero {z xs : List ℚ} (hz : ∀ v ∈ z, v = 0) (hx : ∀ v ∈ xs, v = 0) :
    df2tRun z xs = List.replicate xs.length 0 := by
  induction xs generalizing z with
  | nil => rfl
  | cons x xs ih =>
    have hx0 : x = 0 := hx x (List.mem_cons_self x xs)
    subst hx0
    simp only [df2tRun, List.length_cons, List.replicate_succ, (df2tStep_zero hz).1]
    exact congrArg _ (ih (df2tStep_zero hz).2 (fun v hv => hx v (List.mem_cons_of_mem _ hv)))

theorem headD_zero_of_allZero {xs : List ℚ} (h : ∀ v ∈ xs, v = 0) : xs.headD 0 = 0 := by
  cases xs with
  | nil => rfl
  | cons x xs => exact h x (List.mem_cons_self x xs)

theorem bpfFast_allZero {dn : List ℚ} (h : ∀ v ∈ dn, v = 0) :
    bpfFast dn = List.replicate dn.length 0 := by
  unfold bpfFast
  rw [headD_zero_of_allZero h]
  have hzstate : ∀ v ∈ ziVec.map (fun z => z * 0), v = 0 := by
    intro v hv
    rcases List.mem_map.mp hv with ⟨z, _, rfl⟩
    ring
  rw [df2tRun_allZero hzstate h]
  simp

theorem cumsum_allZero {xs : List ℚ} (h : ∀ v ∈ xs, v = 0) :
    ∀ v ∈ cumsum xs, v = 0 := by
  intro v hv
  rcases List.mem_map.mp hv with ⟨i, _, rfl⟩
  rw [sumTo_congr (i + 1) (fun j _ => getD_zero_of_allZero h j)]
  exact sumTo_zero _

theorem resample10hz_allZero {tr : List ℚ} (h : ∀ v ∈ tr, v = 0) :
    resample10hz tr = List.replicate (tr.length / 3) 0 := by
  refine List.eq_replicate_iff.mpr ⟨by simp [resample10hz], ?_⟩
  intro v hv
  simp only [resample10hz, List.mem_map] at hv
  obtain ⟨k, _, rfl⟩ := hv
  have hd2 : ∀ w ∈ (List.range (cumsum tr).length).map (fun i =>
      if 3 ≤ i then (cumsum tr).getD i 0 - (cumsum tr).getD (i - 3) 0
      else (cumsum tr).getD i 0), w = 0 := by
    intro w hw
    rcases List.mem_map.mp hw with ⟨i, _, rfl⟩
    split
    · rw [getD_zero_of_allZero (cumsum_allZero h),
        getD_zero_of_allZero (cumsum_allZero h)]
      ring
    · exact getD_zero_of_allZero (cumsum_allZero h) _
  rw [getD_zero_of_allZero hd2]
  norm_num

theorem sumCounts_allZero {d10 : List ℚ} (h : ∀ v ∈ d10, v = 0) (epoch : ℕ) :
    sumCounts d10 epoch = List.replicate (d10.length / (epoch * 10)) 0 := by
  refine List.eq_replicate_iff.mpr ⟨by simp [sumCounts], ?_⟩
  intro v hv
  simp only [sumCounts, List.mem_map] at hv
  obtain ⟨k, _, rfl⟩ := hv
  have hd2 : ∀ w ∈ (List.range (cumsum d10).length).map (fun i =>
      if epoch * 10 ≤ i then (cumsum d10).getD i 0 - (cumsum d10).getD (i - epoch * 10) 0
      else (cumsum d10).getD i 0), w = 0 := by
    intro w hw
    rcases List.mem_map.mp hw with ⟨i, _, rfl⟩
    split
    · rw [getD_zero_of_allZero (cumsum_allZero h),
        getD_zero_of_allZero (cumsum_allZero h)]
      ring
    · exact getD_zero_of_allZero (cumsum_allZero h) _
  rw [getD_zero_of_allZero hd2]
  norm_num

theorem fastTail_allZero {dn : List ℚ} (h : ∀ v ∈ dn, v = 0) (lfe : Bool) (epoch : ℕ) :
    fastTail dn lfe epoch = List.replicate (dn.length / 3 / (epoch * 10)) 0 := by
  unfold fastTail
  rw [bpfFast_allZero h]
  simp only [List.map_replicate, trimFast_zero]
  have hrep : ∀ v ∈ List.replicate dn.length (0 : ℚ), v = 0 :=
    fun v hv => List.eq_of_mem_replicate hv
  rw [resample10hz_allZero hrep, List.length_replicate]
  have hrep2 : ∀ v ∈ List.replicate (dn.length / 3) (0 : ℚ), v = 0 :=
    fun v hv => List.eq_of_mem_replicate hv
  rw [sumCounts_allZero hrep2]
  simp

/-! ### Matrix-level plumbing -/

theorem factors_pos (freq : ℕ) : 1 ≤ (factors freq).1 ∧ 1 ≤ (factors freq).2 := by
  unfold factors
  split_ifs <;> exact ⟨by norm_num, by norm_num⟩

theorem resampleFast_ne_nil {xs : List ℚ} (h : 1 ≤ xs.length) (freq : ℕ) :
    resampleFast xs freq ≠ [] := by
  have hlen := resampleFast_length xs freq
  intro hnil
  rw [hnil] at hlen
  simp only [List.length_nil] at hlen
  obtain ⟨hL, hM⟩ := factors_pos freq
  split at hlen
  · omega
  · have h1 : 1 ≤ xs.length * (factors freq).1 := Nat.one_le_iff_ne_zero.mpr (by positivity)
    have h2 : (factors freq).2 ≤ xs.length * (factors freq).1 + (factors freq).2 - 1 := by omega
    have := (Nat.one_le_div_iff (by omega)).mpr h2
    omega

theorem transposeRect_length (xss : List (List ℚ)) :
    (transposeRect xss).length = (xss.headD []).length := by simp [transposeRect]

theorem transposeRect_mem_length {xss : List (List ℚ)} {r : List ℚ}
    (h : r ∈ transposeRect xss) : r.length = xss.length := by
  rcases List.mem_map.mp h with ⟨j, _, rfl⟩
  simp

theorem transposeRect_allZero {raw : List (List ℚ)} (h : ∀ r ∈ raw, ∀ v ∈ r, v = 0) :
    transposeRect raw =
      List.replicate (raw.headD []).length (List.replicate raw.length 0) := by
  refine List.eq_replicate_iff.mpr ⟨by simp [transposeRect], ?_⟩
  intro c hc
  rcases List.mem_map.mp hc with ⟨j, _, rfl⟩
  refine List.eq_replicate_iff.mpr ⟨by simp, ?_⟩
  intro v hv
  rcases List.mem_map.mp hv with ⟨r, hr, rfl⟩
  exact getD_zero_of_allZero (h r hr) j

theorem col_eq_some {raw : List (List ℚ)} {j : ℕ} (h : ∀ r ∈ raw, j < r.length) :
    col raw j = some (raw.map (fun r => r.getD j 0)) := by
  unfold col
  rw [if_pos (List.all_eq_true.mpr (fun r hr => decide_eq_true (h r hr)))]

theorem headD_replicate {α : Type} [Inhabited α] {N : ℕ} (hN : 1 ≤ N) (x d : α) :
    (List.replicate N x).headD d = x := by
  cases N with
  | zero => omega
  | succ n => rfl

theorem extractFast_eq (raw : List (List ℚ)) (freq : ℕ) (lfe : Bool) (epoch : ℕ)
    (hrw : 1 ≤ (raw.headD []).length)
    (hdn : ∀ c ∈ transposeRect raw, resampleFast c freq ≠ []) :
    extractFast raw freq lfe epoch =
      some (((transposeRect raw).map (fun c => resampleFast c freq)).map
        (fun dn => fastTail dn lfe epoch)) := by
  unfold extractFast
  rw [if_neg]
  intro hcon
  rcases hcon with hemp | hany
  · rw [List.isEmpty_iff, List.map_eq_nil_iff] at hemp
    have : (transposeRect raw).length = 0 := by rw [hemp]; rfl
    rw [transposeRect_length] at this
    omega
  · rw [List.any_eq_true] at hany
    obtain ⟨dn, hdnmem, hdnemp⟩ := hany
    rcases List.mem_map.mp hdnmem with ⟨c, hc, rfl⟩
    exact hdn c hc (List.isEmpty_iff.mp hdnemp)

/-- The fast entry point on the all-zero `N × c` raw matrix: no shape check
fires; the result is a matrix with `c` columns and the expected number of
epoch rows. -/
theorem getCounts_fast_zero (N c freq epoch : ℕ) (hf : freq ∈ supportedFreqs)
    (hN : 1 ≤ N) (hc : 1 ≤ c) :
    getCounts (List.replicate N (List.replicate c 0)) freq epoch true =
      some (List.replicate
        ((resampleFast (List.replicate N 0) freq).length / 3 / (epoch * 10))
        (List.replicate c 0)) := by
  have hzero : ∀ r ∈ List.replicate N (List.replicate c (0 : ℚ)), ∀ v ∈ r, v = 0 := by
    intro r hr v hv
    rw [List.eq_of_mem_replicate hr] at hv
    exact List.eq_of_mem_replicate hv
  have hhead : (List.replicate N (List.replicate c (0 : ℚ))).headD [] = List.replicate c 0 :=
    headD_replicate hN _ _
  have htr : transposeRect (List.replicate N (List.replicate c (0 : ℚ))) =
      List.replicate c (List.replicate N 0) := by
    rw [transposeRect_allZero hzero, hhead]
    simp
  have hch : ∀ ch ∈ transposeRect (List.replicate N (List.replicate c (0 : ℚ))),
      resampleFast ch freq ≠ [] := by
    intro ch hchm
    rw [htr] at hchm
    rw [List.eq_of_mem_replicate hchm]
    exact resampleFast_ne_nil (by simpa using hN) freq
  have hrs : resampleFast (List.replicate N (0 : ℚ)) freq =
      List.replicate (resampleFast (List.replicate N (0 : ℚ)) freq).length 0 :=
    List.eq_replicate_iff.mpr ⟨rfl,
      resampleFast_allZero (fun v hv => List.eq_of_mem_replicate hv) freq⟩
  unfold getCounts
  rw [if_pos hf]
  show (extractFast _ freq false epoch).map _ = _
  rw [extractFast_eq _ freq false epoch (by rw [hhead]; simpa using hc) hch, htr]
  rw [List.map_replicate, List.map_replicate]
  conv_lhs =>
    rw [hrs, fastTail_allZero (fun v hv => List.eq_of_mem_replicate hv) false epoch,
      List.length_replicate]
  rw [Option.map_some']
  have htr2 : transposeRect (List.replicate c (List.replicate
      ((resampleFast (List.replicate N (0 : ℚ)) freq).length / 3 / (epoch * 10)) 0)) =
      List.replicate ((resampleFast (List.replicate N (0 : ℚ)) freq).length / 3 / (epoch * 10))
        (List.replicate c 0) := by
    rw [transposeRect_allZero (by
      intro r hr v hv
      rw [List.eq_of_mem_replicate hr] at hv
      exact List.eq_of_mem_replicate hv), headD_replicate hc _ _]
    simp
  rw [htr2, List.map_replicate, List.map_replicate]
  have : truncQ 0 = 0 := by decide
  rw [this]

/-! ### Claim C4: no shape validation -/

/-- C4 counterexample: a raw matrix whose rows are pairs rather than
(x,y,z) triplets is processed without any shape-mismatch failure; the fast
mode returns a 2-column count matrix. -/
theorem claim_C4_counterexample :
    getCounts (List.replicate 30 [0, 0]) 30 1 true = some [[0, 0]] := by decide

/-- C4 as amended: no shape check is performed.  In fast mode an all-zero
raw matrix with `c` columns (for any `c ≥ 1`, in particular `c ≠ 3`) is
processed to completion and yields a count matrix whose rows have `c`
entries, with the usual number of epoch rows. -/
theorem claim_C4 (N c freq epoch : ℕ) (hf : freq ∈ supportedFreqs)
    (hN : 1 ≤ N) (hc : 1 ≤ c) :
    getCounts (List.replicate N (List.replicate c 0)) freq epoch true =
      some (List.replicate
        ((resampleFast (List.replicate N 0) freq).length / 3 / (epoch * 10))
        (List.replicate c 0)) :=
  getCounts_fast_zero N c freq epoch hf hN hc

theorem claim_C4_witness :
    (30 ∈ supportedFreqs ∧ 1 ≤ 30 ∧ 1 ≤ 2) ∧
      getCounts (List.replicate 30 (List.replicate 2 0)) 30 1 true =
        some (List.replicate
          ((resampleFast (List.replicate 30 0) 30).length / 3 / (1 * 10))
          (List.replicate 2 0)) :=
  ⟨⟨by decide, by decide, by decide⟩, claim_C4 30 2 30 1 (by decide) (by decide) (by decide)⟩

/-! ### Shape lemmas for the mode-equivalence claim -/

theorem dn_len_eq {N freq : ℕ} (hdvd : (factors freq).2 ∣ N * (factors freq).1) :
    (N * (factors freq).1 + (factors freq).2 - 1) / (factors freq).2 =
      N * (factors freq).1 / (factors freq).2 := by
  obtain ⟨hL, hM⟩ := factors_pos freq
  obtain ⟨q, hq⟩ := hdvd
  rw [hq]
  have h1 : (factors freq).2 * q + (factors freq).2 - 1 =
      (factors freq).2 * q + ((factors freq).2 - 1) := by omega
  rw [h1, Nat.mul_add_div (by omega), Nat.div_eq_of_lt (by omega),
    Nat.mul_div_cancel_left q (by omega)]
  omega

theorem downsampleSlow_ne_nil {xs : List ℚ} {freq : ℕ} (hN : 1 ≤ xs.length)
    (hdvd : (factors freq).2 ∣ xs.length * (factors freq).1) :
    downsampleSlow xs freq ≠ [] := by
  have hlen := downsampleSlow_length xs freq
  obtain ⟨hL, hM⟩ := factors_pos freq
  intro hnil
  rw [hnil] at hlen
  simp only [List.length_nil] at hlen
  split at hlen
  · omega
  · have h1 : 1 ≤ xs.length * (factors freq).1 := Nat.one_le_iff_ne_zero.mpr (by positivity)
    have h2 : (factors freq).2 ≤ xs.length * (factors freq).1 := Nat.le_of_dvd (by omega) hdvd
    have := (Nat.one_le_div_iff (by omega)).mpr h2
    omega

theorem extractSlow_shape (xs : List ℚ) (freq : ℕ) (lfe : Bool) (epoch : ℕ)
    (hne : downsampleSlow xs freq ≠ []) :
    ∃ l, extractSlow xs freq lfe epoch = some l ∧
      l.length = (downsampleSlow xs freq).length / 3 / (epoch * 10) := by
  obtain ⟨x0, rest, hd⟩ := List.exists_cons_of_ne_nil hne
  refine ⟨_, extractSlow_cons hd lfe epoch, ?_⟩
  rw [epochSumSlow_length, decimate10Slow_length, List.length_map, List.length_map,
    bpfRun_length, ← hd]

theorem fastTail_length (dn : List ℚ) (lfe : Bool) (epoch : ℕ) :
    (fastTail dn lfe epoch).length = dn.length / 3 / (epoch * 10) := by
  unfold fastTail bpfFast
  rw [sumCounts_length, resample10hz_length, List.length_map, List.length_map,
    df2tRun_length]

/-- The all-zero slow entry point on an `N × 3` zero matrix. -/
theorem getCounts_slow_zero (N freq epoch : ℕ) (hf : freq ∈ supportedFreqs)
    (hne : downsampleSlow (List.replicate N 0) freq ≠ []) :
    getCounts (List.replicate N (List.replicate 3 0)) freq epoch false =
      some (List.replicate
        ((downsampleSlow (List.replicate N 0) freq).length / 3 / (epoch * 10))
        [(0 : ℤ), 0, 0]) := by
  have hcol : ∀ j : ℕ, j < 3 → col (List.replicate N (List.replicate 3 (0 : ℚ))) j =
      some (List.replicate N 0) := by
    intro j hj
    rw [col_eq_some (by intro r hr; rw [List.eq_of_mem_replicate hr]; simpa using hj)]
    congr 1
    rw [List.map_replicate]
    congr 1
    exact getD_zero_of_allZero (fun v hv => List.eq_of_mem_replicate hv) j
  have hext := extractSlow_allZero (fun v hv => List.eq_of_mem_replicate hv) freq false epoch hne
  unfold getCounts
  rw [if_pos hf]
  show slowBranch _ freq epoch = _
  unfold slowBranch
  rw [hcol 0 (by norm_num), hcol 1 (by norm_num), hcol 2 (by norm_num)]
  dsimp only
  rw [hext]
  dsimp only
  have hR : (List.replicate ((downsampleSlow (List.replicate N (0 : ℚ)) freq).length / 3 /
      (epoch * 10)) (0 : ℚ)).length =
      (downsampleSlow (List.replicate N (0 : ℚ)) freq).length / 3 / (epoch * 10) := by simp
  refine congrArg some (List.eq_replicate_iff.mpr ⟨by simp, ?_⟩)
  intro r hr
  rcases List.mem_map.mp hr with ⟨i, _, rfl⟩
  rw [getD_zero_of_allZero (fun v hv => List.eq_of_mem_replicate hv) i]
  norm_num [truncQ]

/-- C1 as amended: under the supported frequencies and positive epochs, on a
well-shaped `N × 3` raw input whose resampled length is exact
(`M ∣ N·L`, in particular every input at frequency 30), the Reference and
Fast modes both succeed and produce count matrices of the same shape; and on
an all-zero input the two matrices are identical.  (When `M ∤ N·L` the two
modes can disagree: see the counterexample.) -/
theorem claim_C1 (raw : List (List ℚ)) (freq epoch : ℕ)
    (hf : freq ∈ supportedFreqs) (he : 1 ≤ epoch) (hN : 1 ≤ raw.length)
    (hrow : ∀ r ∈ raw, r.length = 3)
    (hdvd : (factors freq).2 ∣ raw.length * (factors freq).1) :
    ∃ ms mf, getCounts raw freq epoch false = some ms ∧
      getCounts raw freq epoch true = some mf ∧
      ms.length = mf.length ∧ (∀ r ∈ ms, r.length = 3) ∧ (∀ r ∈ mf, r.length = 3) ∧
      ((∀ r ∈ raw, ∀ v ∈ r, v = 0) → ms = mf) := by
  obtain ⟨hL, hM⟩ := factors_pos freq
  have hrne : raw ≠ [] := by
    intro hnil
    rw [hnil] at hN
    simp at hN
  obtain ⟨r0, rtail, hraw⟩ := List.exists_cons_of_ne_nil hrne
  have hhead : raw.headD [] = r0 := by rw [hraw]; rfl
  have hr0 : r0.length = 3 := hrow r0 (hraw ▸ List.mem_cons_self _ _)
  obtain ⟨chx, hchx, hchxlen⟩ : ∃ c, col raw 0 = some c ∧ c.length = raw.length :=
    ⟨_, col_eq_some (fun r hr => by rw [hrow r hr]; norm_num), by simp⟩
  obtain ⟨chy, hchy, hchylen⟩ : ∃ c, col raw 1 = some c ∧ c.length = raw.length :=
    ⟨_, col_eq_some (fun r hr => by rw [hrow r hr]; norm_num), by simp⟩
  obtain ⟨chz, hchz, hchzlen⟩ : ∃ c, col raw 2 = some c ∧ c.length = raw.length :=
    ⟨_, col_eq_some (fun r hr => by rw [hrow r hr]; norm_num), by simp⟩
  have hdnnex : downsampleSlow chx freq ≠ [] :=
    downsampleSlow_ne_nil (by omega) (hchxlen ▸ hdvd)
  have hdnney : downsampleSlow chy freq ≠ [] :=
    downsampleSlow_ne_nil (by omega) (hchylen ▸ hdvd)
  have hdnnez : downsampleSlow chz freq ≠ [] :=
    downsampleSlow_ne_nil (by omega) (hchzlen ▸ hdvd)
  obtain ⟨cx, hcx, hcxlen⟩ := extractSlow_shape chx freq false epoch hdnnex
  obtain ⟨cy, hcy, _⟩ := extractSlow_shape chy freq false epoch hdnney
  obtain ⟨cz, hcz, _⟩ := extractSlow_shape chz freq false epoch hdnnez
  have hms : getCounts raw freq epoch false = some ((List.range cx.length).map (fun i =>
      [truncQ (cx.getD i 0), truncQ (cy.getD i 0), truncQ (cz.getD i 0)])) := by
    unfold getCounts
    rw [if_pos hf, if_neg Bool.false_ne_true]
    unfold slowBranch
    rw [hchx, hchy, hchz]
    dsimp only
    rw [hcx, hcy, hcz]
  have hch : ∀ c ∈ transposeRect raw, resampleFast c freq ≠ [] := by
    intro c hc
    apply resampleFast_ne_nil
    rw [transposeRect_mem_length hc]
    exact hN
  have hmfeq := extractFast_eq raw freq false epoch (by rw [hhead, hr0]; norm_num) hch
  have hgf : getCounts raw freq epoch true =
      some ((transposeRect (((transposeRect raw).map (fun c => resampleFast c freq)).map
        (fun dn => fastTail dn false epoch))).map (fun row => row.map truncQ)) := by
    unfold getCounts
    rw [if_pos hf, if_pos rfl, hmfeq, Option.map_some']
  refine ⟨_, _, hms, hgf, ?_, ?_, ?_, ?_⟩
  · -- equal shapes
    have htrne : transposeRect raw ≠ [] := by
      intro hnil
      have h3 := transposeRect_length raw
      rw [hnil, hhead, hr0] at h3
      simp at h3
    obtain ⟨c0, cs, hcs⟩ := List.exists_cons_of_ne_nil htrne
    have hc0len : c0.length = raw.length :=
      transposeRect_mem_length (hcs ▸ List.mem_cons_self _ _)
    have hmffirst : ((((transposeRect raw).map (fun c => resampleFast c freq)).map
        (fun dn => fastTail dn false epoch)).headD []) =
        fastTail (resampleFast c0 freq) false epoch := by
      rw [hcs]
      rfl
    simp only [List.length_map, List.length_range]
    rw [hcxlen, transposeRect_length, hmffirst, fastTail_length, resampleFast_length,
      downsampleSlow_length, hc0len, hchxlen]
    by_cases h30 : freq = 30
    · rw [if_pos h30, if_pos h30]
    · rw [if_neg h30, if_neg h30, dn_len_eq hdvd]
  · -- slow rows are triplets
    intro r hr
    rcases List.mem_map.mp hr with ⟨i, _, rfl⟩
    rfl
  · -- fast rows are triplets
    intro r hr
    rcases List.mem_map.mp hr with ⟨row, hrowm, rfl⟩
    rw [List.length_map, transposeRect_mem_length hrowm, List.length_map, List.length_map,
      transposeRect_length, hhead, hr0]
  · -- all-zero inputs: identical outputs
    intro hz
    have hraweq : raw = List.replicate raw.length (List.replicate 3 0) := by
      refine List.eq_replicate_iff.mpr ⟨rfl, ?_⟩
      intro r hr
      exact List.eq_replicate_iff.mpr ⟨hrow r hr, fun v hv => hz r hr v hv⟩
    have hslow0 := getCounts_slow_zero raw.length freq epoch hf
      (downsampleSlow_ne_nil (by simpa using hN) (by simpa using hdvd))
    have hfast0 := getCounts_fast_zero raw.length 3 freq epoch hf hN (by norm_num)
    rw [← hraweq] at hslow0 hfast0
    rw [hms] at hslow0
    rw [hgf] at hfast0
    rw [Option.some.inj hslow0, Option.some.inj hfast0]
    have hlen3 : (List.replicate 3 (0 : ℤ)) = [(0 : ℤ), 0, 0] := rfl
    rw [hlen3, downsampleSlow_length, resampleFast_length]
    simp only [List.length_replicate]
    by_cases h30 : freq = 30
    · rw [if_pos h30, if_pos h30]
    · rw [if_neg h30, if_neg h30, dn_len_eq (by simpa using hdvd)]


/-! ### The filter warm-up and the steady state -/

theorem getD_replicate_of_lt {x : ℚ} {n k : ℕ} (h : k < n) :
    (List.replicate n x).getD k 0 = x := by
  rw [List.getD_eq_getElem?_getD, List.getElem?_replicate, if_pos h]
  rfl

theorem rangeMap_getD_lt {α : Type} (d : α) (n : ℕ) (f : ℕ → α) {i : ℕ} (h : i < n) :
    ((List.range n).map f).getD i d = f i := by
  simp [List.getD_eq_getElem?_getD, List.getElem?_map, List.getElem?_range h]

/-- The explicit `ziVec` solves the linear system that
`scipy.signal.lfilter_zi` constructs for the frozen coefficient arrays:
`(I - companion(b)ᵀ) · zi = a[1:] - b[1:]·a[0]`. -/
theorem ziVec_solves_lfilter_zi_system :
    ∀ i < 8, ziVec.getD i 0 + bCoef (i + 1) * ziVec.getD 0 0 - ziVec.getD (i + 1) 0 =
      aCoef (i + 1) - bCoef (i + 1) * aCoef 0 := by decide

theorem warm_nine : warm 1 9 = (List.replicate 9 1, rNine) := by decide

theorem bpfStep_constIn (r : List ℚ) :
    (bpfStep 1 (List.replicate 9 1, r)).1 = (List.replicate 9 1, outStep r) := by
  simp only [bpfStep, outStep]
  rw [Prod.mk.injEq]
  refine ⟨?_, ?_⟩
  · rw [List.take_replicate]
    rfl
  · have hz : sumTo (fun k => aCoef k *
        ((1 : ℚ) :: (List.replicate 9 (1 : ℚ)).take 8).getD k 0) 8 = sumTo aCoef 8 := by
      apply sumTo_congr
      intro k hk
      have hone : ((1 : ℚ) :: (List.replicate 9 (1 : ℚ)).take 8).getD k 0 = 1 := by
        cases k with
        | zero => rfl
        | succ m =>
          rw [List.getD_cons_succ, List.take_replicate]
          exact getD_replicate_of_lt (by omega)
      rw [hone, mul_one]
    rw [hz]

theorem warm_tail (n : ℕ) (r : List ℚ) :
    (fun s => (bpfStep 1 s).1)^[n] (List.replicate 9 1, r) =
      (List.replicate 9 1, outStep^[n] r) := by
  induction n generalizing r with
  | zero => rfl
  | succ n ih =>
    rw [Function.iterate_succ_apply, bpfStep_constIn, ih, Function.iterate_succ_apply]

theorem outStep_length {r : List ℚ} (h : r.length = 9) : (outStep r).length = 9 := by
  simp [outStep, h]

theorem outStep_iter_length (n : ℕ) {r : List ℚ} (h : r.length = 9) :
    (outStep^[n] r).length = 9 := by
  induction n with
  | zero => simpa
  | succ n ih => rw [Function.iterate_succ_apply', outStep_length ih]

theorem exists_eq_of_len9 (r : List ℚ) (h : r.length = 9) :
    ∃ a0 a1 a2 a3 a4 a5 a6 a7 a8, r = [a0, a1, a2, a3, a4, a5, a6, a7, a8] := by
  obtain ⟨a0, r1, rfl⟩ := List.exists_cons_of_ne_nil
    (show r ≠ [] by intro e; rw [e] at h; simp at h)
  have h1 : r1 ≠ [] := by intro e; rw [e] at h; simp at h
  obtain ⟨a1, r2, rfl⟩ := List.exists_cons_of_ne_nil h1
  have h2 : r2 ≠ [] := by intro e; rw [e] at h; simp at h
  obtain ⟨a2, r3, rfl⟩ := List.exists_cons_of_ne_nil h2
  have h3 : r3 ≠ [] := by intro e; rw [e] at h; simp at h
  obtain ⟨a3, r4, rfl⟩ := List.exists_cons_of_ne_nil h3
  have h4 : r4 ≠ [] := by intro e; rw [e] at h; simp at h
  obtain ⟨a4, r5, rfl⟩ := List.exists_cons_of_ne_nil h4
  have h5 : r5 ≠ [] := by intro e; rw [e] at h; simp at h
  obtain ⟨a5, r6, rfl⟩ := List.exists_cons_of_ne_nil h5
  have h6 : r6 ≠ [] := by intro e; rw [e] at h; simp at h
  obtain ⟨a6, r7, rfl⟩ := List.exists_cons_of_ne_nil h6
  have h7 : r7 ≠ [] := by intro e; rw [e] at h; simp at h
  obtain ⟨a7, r8, rfl⟩ := List.exists_cons_of_ne_nil h7
  have h8 : r8 ≠ [] := by intro e; rw [e] at h; simp at h
  obtain ⟨a8, r9tail, rfl⟩ := List.exists_cons_of_ne_nil h8
  have h9 : r9tail = [] := by
    simp only [List.length_cons] at h
    exact List.eq_nil_of_length_eq_zero (by omega)
  subst h9
  exact ⟨a0, a1, a2, a3, a4, a5, a6, a7, a8, rfl⟩

theorem matVec_entry (A : List (List ℚ)) (w : List ℚ) {i : ℕ} (hi : i < 10) :
    (matVec A w).getD i 0 = ∑ j ∈ Finset.range 10, (A.getD i []).getD j 0 * w.getD j 0 := by
  unfold matVec
  rw [rangeMap_getD_lt (0 : ℚ) 10 _ hi, sumTo_eq_sum]

theorem matMul_entry (A B : List (List ℚ)) {i j : ℕ} (hi : i < 10) (hj : j < 10) :
    ((matMul A B).getD i []).getD j 0 =
      ∑ k ∈ Finset.range 10, (A.getD i []).getD k 0 * (B.getD k []).getD j 0 := by
  unfold matMul
  rw [rangeMap_getD_lt ([] : List ℚ) 10 _ hi, rangeMap_getD_lt (0 : ℚ) 10 _ hj, sumTo_eq_sum]

theorem rangeMap_ext {f g : ℕ → ℚ} (n : ℕ) (h : ∀ i < n, f i = g i) :
    (List.range n).map f = (List.range n).map g :=
  List.map_congr_left (fun i hi => h i (List.mem_range.mp hi))

theorem matVec_matMul (A B : List (List ℚ)) (w : List ℚ) :
    matVec (matMul A B) w = matVec A (matVec B w) := by
  show (List.range 10).map _ = (List.range 10).map _
  apply rangeMap_ext
  intro i hi
  show sumTo (fun j => ((matMul A B).getD i []).getD j 0 * w.getD j 0) 10 =
    sumTo (fun j => (A.getD i []).getD j 0 * (matVec B w).getD j 0) 10
  rw [sumTo_eq_sum, sumTo_eq_sum]
  trans (∑ j ∈ Finset.range 10,
    (∑ k ∈ Finset.range 10, (A.getD i []).getD k 0 * (B.getD k []).getD j 0) * w.getD j 0)
  · exact Finset.sum_congr rfl (fun j hj => by
      rw [matMul_entry A B hi (Finset.mem_range.mp hj)])
  trans (∑ j ∈ Finset.range 10,
    (A.getD i []).getD j 0 * (∑ k ∈ Finset.range 10, (B.getD j []).getD k 0 * w.getD k 0))
  · simp only [Finset.sum_mul]
    rw [Finset.sum_comm]
    apply Finset.sum_congr rfl
    intro k _
    rw [Finset.mul_sum]
    apply Finset.sum_congr rfl
    intro j _
    ring
  · exact (Finset.sum_congr rfl (fun j hj => by
      rw [matVec_entry B w (Finset.mem_range.mp hj)])).symm

theorem iterate_pow2 (k : ℕ) (w : List ℚ) :
    (matVec warmMat)^[2 ^ k] w = matVec (Spow k) w := by
  induction k generalizing w with
  | zero => rw [pow_zero, Function.iterate_one]; rfl
  | succ k ih =>
    have h2 : 2 ^ (k + 1) = 2 ^ k + 2 ^ k := by ring
    rw [h2, Function.iterate_add_apply, ih, ih, ← matVec_matMul]
    rfl

theorem outStep_affine (r : List ℚ) (h : r.length = 9) :
    outStep r ++ [1] = matVec warmMat (r ++ [1]) := by
  obtain ⟨a0, a1, a2, a3, a4, a5, a6, a7, a8, rfl⟩ := exists_eq_of_len9 r h
  simp only [outStep, matVec, warmMat, sumTo, List.range_succ, List.range_zero,
    List.map_append, List.map_cons, List.map_nil, List.nil_append, List.cons_append,
    List.getD_cons_zero, List.getD_cons_succ, List.take_succ_cons, List.take_zero,
    List.getD_nil, List.cons.injEq, and_true]
  norm_num [aCoef, bCoef]
  ring

theorem outStep_iter_affine (n : ℕ) (r : List ℚ) (h : r.length = 9) :
    outStep^[n] r ++ [1] = (matVec warmMat)^[n] (r ++ [1]) := by
  induction n with
  | zero => rfl
  | succ n ih =>
    rw [Function.iterate_succ_apply', Function.iterate_succ_apply',
      outStep_affine _ (outStep_iter_length n h), ih]

theorem rNine_length : rNine.length = 9 := rfl

/-- The warm-up state after the full 1080 iterations on the constant sample
1, through the matrix-power form of the last 1071 iterations. -/
theorem warm_one_eval : warm 1 1080 = (List.replicate 9 1, warmTailChain.take 9) := by
  have h1 : warm 1 1080 = (fun s => (bpfStep 1 s).1)^[1071] (warm 1 9) := by
    unfold warm
    rw [← Function.iterate_add_apply]
  rw [h1, warm_nine, warm_tail]
  have hb := outStep_iter_affine 1071 rNine rNine_length
  have hsplit : (matVec warmMat)^[1071] (rNine ++ [1]) = warmTailChain := by
    have h71 : (1071 : ℕ) = 1 + (2 + (4 + (8 + (32 + 1024)))) := by norm_num
    rw [h71, Function.iterate_add_apply, Function.iterate_add_apply,
      Function.iterate_add_apply, Function.iterate_add_apply, Function.iterate_add_apply]
    rw [show (2 : ℕ) = 2 ^ 1 by norm_num, show (4 : ℕ) = 2 ^ 2 by norm_num,
      show (8 : ℕ) = 2 ^ 3 by norm_num, show (32 : ℕ) = 2 ^ 5 by norm_num,
      show (1024 : ℕ) = 2 ^ 10 by norm_num]
    rw [iterate_pow2, iterate_pow2, iterate_pow2, iterate_pow2, iterate_pow2,
      Function.iterate_one]
    rfl
  have htake : outStep^[1071] rNine = warmTailChain.take 9 := by
    rw [← hsplit, ← hb,
      show (9 : ℕ) = (outStep^[1071] rNine).length from
        (outStep_iter_length 1071 rNine_length).symm,
      List.take_left]
  rw [htake]

set_option maxRecDepth 200000 in
/-- The numeric core of the warm-up comparison: every component of the
output register reached by the 1071-step matrix-power form lies within
`10⁻⁶` relative tolerance of the steady output. -/
theorem warm_one_close :
    ∀ k, k < 9 →
      |(warmTailChain.take 9).getD k 0 - steadyGain| ≤ 1 / 10 ^ 6 * |steadyGain| := by
  decide

theorem sumTo_mul_right (f : ℕ → ℚ) (c : ℚ) (n : ℕ) :
    sumTo (fun k => f k * c) n = sumTo f n * c := by
  induction n with
  | zero => simp [sumTo]
  | succ n ih => simp only [sumTo, ih]; ring

/-- The steady state for a constant input is a fixed point of the
shift-register filter, with output `x · steadyGain`. -/
theorem bpfStep_steady (x : ℚ) :
    bpfStep x (steadyState x) = (steadyState x, x * steadyGain) := by
  have hSa : sumTo aCoef 8 = -1 / 10 ^ 14 := by decide
  have hSb : sumTo (fun k => bCoef (k + 1)) 7 = -99983977442241 / 10 ^ 14 := by decide
  have hg : steadyGain = -1 / 16022557759 := by decide
  unfold bpfStep steadyState
  dsimp only
  have hzc : sumTo (fun k => aCoef k * (x :: (List.replicate 9 x).take 8).getD k 0) 8 =
      sumTo aCoef 8 * x := by
    rw [← sumTo_mul_right]
    apply sumTo_congr
    intro k hk
    have hx : (x :: (List.replicate 9 x).take 8).getD k 0 = x := by
      cases k with
      | zero => rfl
      | succ m =>
        rw [List.getD_cons_succ, List.take_replicate]
        exact getD_replicate_of_lt (by omega)
    rw [hx]
  have hpc : sumTo (fun k => bCoef (k + 1) *
      (List.replicate 9 (x * steadyGain)).getD k 0) 7 =
      sumTo (fun k => bCoef (k + 1)) 7 * (x * steadyGain) := by
    rw [← sumTo_mul_right]
    apply sumTo_congr
    intro k hk
    rw [getD_replicate_of_lt (by omega)]
  have hy : sumTo aCoef 8 * x - sumTo (fun k => bCoef (k + 1)) 7 * (x * steadyGain) =
      x * steadyGain := by
    rw [hSa, hSb, hg]
    ring
  rw [Prod.mk.injEq, Prod.mk.injEq]
  refine ⟨⟨?_, ?_⟩, ?_⟩
  · rw [List.take_replicate]
    rfl
  · rw [hzc, hpc, hy, List.take_replicate]
    rfl
  · rw [hzc, hpc, hy]

/-- The scipy steady state `zi` scaled by the first sample is a fixed point
of the scipy filter recurrence, with the same output `x · steadyGain`. -/
theorem df2tStep_zi (x : ℚ) :
    df2tStep x (ziVec.map (fun z => z * x)) =
      (ziVec.map (fun z => z * x), x * steadyGain) := by
  have hg : steadyGain = -1 / 16022557759 := by decide
  unfold df2tStep ziVec
  simp only [List.map_cons, List.map_nil, List.range_succ, List.range_zero,
    List.map_append, List.nil_append, List.cons_append, List.getD_cons_zero,
    List.getD_cons_succ, List.getD_nil, List.cons.injEq, and_true, Prod.mk.injEq,
    List.nil_eq, zero_mul]
  rw [hg]
  norm_num [aCoef, bCoef]
  ring_nf
  simp

theorem bpfStep_smul (c x : ℚ) (s : List ℚ × List ℚ) :
    bpfStep (c * x) (s.1.map (fun v => c * v), s.2.map (fun v => c * v)) =
      ((((bpfStep x s).1.1).map (fun v => c * v),
        ((bpfStep x s).1.2).map (fun v => c * v)), c * (bpfStep x s).2) := by
  unfold bpfStep
  dsimp only
  have hzc : sumTo (fun k => aCoef k *
      ((c * x) :: (s.1.map (fun v => c * v)).take 8).getD k 0) 8 =
      c * sumTo (fun k => aCoef k * (x :: s.1.take 8).getD k 0) 8 := by
    rw [← sumTo_mul]
    apply sumTo_congr
    intro k hk
    have hh : ((c * x) :: (s.1.map (fun v => c * v)).take 8).getD k 0 =
        c * ((x :: s.1.take 8).getD k 0) := by
      cases k with
      | zero => rfl
      | succ m =>
        rw [List.getD_cons_succ, List.getD_cons_succ, ← List.map_take, getD_map_mul]
    rw [hh]
    ring
  have hpc : sumTo (fun k => bCoef (k + 1) * (s.2.map (fun v => c * v)).getD k 0) 7 =
      c * sumTo (fun k => bCoef (k + 1) * s.2.getD k 0) 7 := by
    rw [← sumTo_mul]
    apply sumTo_congr
    intro k hk
    rw [getD_map_mul]
    ring
  rw [Prod.mk.injEq, Prod.mk.injEq]
  refine ⟨⟨?_, ?_⟩, ?_⟩
  · rw [List.map_cons, List.map_take]
  · rw [hzc, hpc, List.map_cons, List.map_take]
    congr 1
    ring
  · rw [hzc, hpc]
    ring

theorem warm_smul (c : ℚ) (n : ℕ) :
    warm c n = ((warm 1 n).1.map (fun v => c * v), (warm 1 n).2.map (fun v => c * v)) := by
  induction n with
  | zero =>
    unfold warm
    simp only [Function.iterate_zero, id_eq]
    rw [List.map_replicate, mul_zero]
  | succ n ih =>
    unfold warm at ih ⊢
    rw [Function.iterate_succ_apply', Function.iterate_succ_apply', ih]
    have h := bpfStep_smul c 1 ((fun s => (bpfStep 1 s).1)^[n]
      (List.replicate 9 0, List.replicate 9 0))
    rw [mul_one] at h
    exact congrArg Prod.fst h

/-! ### Claim C9: warm-up equivalence -/

/-- C9: the steady-state initialization and the 1080-iteration warm-up
agree.  For every first sample `x0`: the steady state (input register all
`x0`, output register all `x0·steadyGain`) is a fixed point of the
reference filter step; the scipy `zi` vector scaled by `x0` is a fixed
point of the scipy filter step with the same stationary output; and each
component of the 1080-iteration warm-up memory (both input/feedforward and
output/feedback registers) agrees with the corresponding steady-state
component within `10⁻⁶` relative tolerance. -/
theorem claim_C9 (x0 : ℚ) (k : ℕ) (hk : k < 9) :
    bpfStep x0 (steadyState x0) = (steadyState x0, x0 * steadyGain) ∧
    df2tStep x0 (ziVec.map (fun z => z * x0)) =
      (ziVec.map (fun z => z * x0), x0 * steadyGain) ∧
    |(warm x0 1080).1.getD k 0 - (steadyState x0).1.getD k 0| ≤
      1 / 10 ^ 6 * |(steadyState x0).1.getD k 0| ∧
    |(warm x0 1080).2.getD k 0 - (steadyState x0).2.getD k 0| ≤
      1 / 10 ^ 6 * |(steadyState x0).2.getD k 0| := by
  refine ⟨bpfStep_steady x0, df2tStep_zi x0, ?_, ?_⟩
  · have h1 : (warm x0 1080).1 = List.replicate 9 x0 := by
      rw [warm_smul x0 1080, warm_one_eval]
      dsimp only
      rw [List.map_replicate, mul_one]
    rw [h1]
    unfold steadyState
    dsimp only
    rw [getD_replicate_of_lt hk]
    rw [sub_self, abs_zero]
    positivity
  · have h2 : (warm x0 1080).2.getD k 0 = x0 * ((warmTailChain.take 9).getD k 0) := by
      rw [warm_smul x0 1080, warm_one_eval]
      dsimp only
      rw [getD_map_mul]
    rw [h2]
    unfold steadyState
    dsimp only
    rw [getD_replicate_of_lt hk]
    have hclose := warm_one_close k hk
    calc |x0 * (warmTailChain.take 9).getD k 0 - x0 * steadyGain|
        = |x0| * |(warmTailChain.take 9).getD k 0 - steadyGain| := by
          rw [← abs_mul]
          congr 1
          ring
      _ ≤ |x0| * (1 / 10 ^ 6 * |steadyGain|) :=
          mul_le_mul_of_nonneg_left hclose (abs_nonneg x0)
      _ = 1 / 10 ^ 6 * |x0 * steadyGain| := by
          rw [abs_mul]
          ring

theorem claim_C9_witness :
    (0 : ℕ) < 9 ∧
      (bpfStep 2 (steadyState 2) = (steadyState 2, 2 * steadyGain) ∧
       df2tStep 2 (ziVec.map (fun z => z * 2)) =
         (ziVec.map (fun z => z * 2), 2 * steadyGain) ∧
       |(warm 2 1080).1.getD 0 0 - (steadyState 2).1.getD 0 0| ≤
         1 / 10 ^ 6 * |(steadyState 2).1.getD 0 0| ∧
       |(warm 2 1080).2.getD 0 0 - (steadyState 2).2.getD 0 0| ≤
         1 / 10 ^ 6 * |(steadyState 2).2.getD 0 0|) :=
  ⟨by norm_num, claim_C9 2 0 (by norm_num)⟩

/-! ### Concrete evaluations distinguishing the modes and the trim flags -/

theorem c3_slow_channel :
    extractSlow ([0, -19] ++ List.replicate 28 0) 30 false 1 = some [510] := by
  have hd : downsampleSlow ([0, -19] ++ List.replicate 28 0) 30 =
      (0 : ℚ) :: ([-19] ++ List.replicate 28 0) := by decide
  rw [extractSlow_cons hd, warm_zero]
  decide

theorem c3_fast_true :
    extractFast (([0, -19] ++ List.replicate 28 0).map (fun v => [v, v, v])) 30 true 1 =
      some [[511], [511], [511]] := by decide

theorem c3_fast_false :
    extractFast (([0, -19] ++ List.replicate 28 0).map (fun v => [v, v, v])) 30 false 1 =
      some [[510], [510], [510]] := by decide

theorem c3_getCounts_true :
    getCounts (([0, -19] ++ List.replicate 28 0).map (fun v => [v, v, v])) 30 1 true =
      some [[510, 510, 510]] := by decide

theorem c3_getCounts_false :
    getCounts (([0, -19] ++ List.replicate 28 0).map (fun v => [v, v, v])) 30 1 false =
      some [[510, 510, 510]] := by
  unfold getCounts
  rw [if_pos (by decide), if_neg Bool.false_ne_true]
  unfold slowBranch
  have hcol : ∀ j, j < 3 →
      col (([0, -19] ++ List.replicate 28 0).map (fun v => [v, v, v])) j =
        some ([0, -19] ++ List.replicate 28 0) := by
    decide
  rw [hcol 0 (by norm_num), hcol 1 (by norm_num), hcol 2 (by norm_num)]
  dsimp only
  rw [c3_slow_channel]
  decide

theorem c1_slow_channel :
    extractSlow ((10 : ℚ)^12 :: 999999994118592/1000 :: List.replicate 28 0) 30 false 1 =
      some [1279] := by
  have hd : downsampleSlow ((10 : ℚ)^12 :: 999999994118592/1000 :: List.replicate 28 0) 30 =
      (10 : ℚ)^12 :: (999999994118592/1000 :: List.replicate 28 0) := by decide
  rw [extractSlow_cons hd, warm_smul, warm_one_eval]
  decide

theorem c1a_slow :
    getCounts (List.replicate 59 [(0 : ℚ), 0, 0]) 60 1 false = some [] := by
  show getCounts (List.replicate 59 (List.replicate 3 0)) 60 1 false = some []
  rw [getCounts_slow_zero 59 60 1 (by decide) (by decide)]
  decide

theorem c1_zero_channel :
    extractSlow ((0 : ℚ) :: 0 :: List.replicate 28 0) 30 false 1 = some [0] := by
  have hd : downsampleSlow ((0 : ℚ) :: 0 :: List.replicate 28 0) 30 =
      (0 : ℚ) :: (0 :: List.replicate 28 0) := by decide
  rw [extractSlow_cons hd, warm_zero]
  decide

theorem c1_slow_matrix :
    getCounts ([[(10 : ℚ)^12, 0, 0], [999999994118592/1000, 0, 0]] ++
        List.replicate 28 [0, 0, 0]) 30 1 false = some [[1279, 0, 0]] := by
  unfold getCounts
  rw [if_pos (by decide), if_neg Bool.false_ne_true]
  unfold slowBranch
  have hcol0 : col ([[(10 : ℚ)^12, 0, 0], [999999994118592/1000, 0, 0]] ++
      List.replicate 28 [0, 0, 0]) 0 =
      some ((10 : ℚ)^12 :: 999999994118592/1000 :: List.replicate 28 0) := by decide
  have hcol1 : col ([[(10 : ℚ)^12, 0, 0], [999999994118592/1000, 0, 0]] ++
      List.replicate 28 [0, 0, 0]) 1 =
      some ((0 : ℚ) :: 0 :: List.replicate 28 0) := by decide
  have hcol2 : col ([[(10 : ℚ)^12, 0, 0], [999999994118592/1000, 0, 0]] ++
      List.replicate 28 [0, 0, 0]) 2 =
      some ((0 : ℚ) :: 0 :: List.replicate 28 0) := by decide
  rw [hcol0, hcol1, hcol2]
  dsimp only
  rw [c1_slow_channel, c1_zero_channel]
  decide

/-- Claim C1: the specification asserts that for any valid input the fast and
slow modes of get_counts return identical count matrices.  This is false: on
59 samples at 70... (see doc) the shapes differ (floor vs ceil resampled
length), and on a 30-sample input with a large first sample the values differ
(warm-up initialisation vs lfilter_zi steady state). -/
theorem claim_C1_counterexample :
    (getCounts (List.replicate 59 [(0 : ℚ), 0, 0]) 60 1 false = some [] ∧
     getCounts (List.replicate 59 [(0 : ℚ), 0, 0]) 60 1 true = some [[0, 0, 0]]) ∧
    (getCounts ([[(10 : ℚ)^12, 0, 0], [999999994118592/1000, 0, 0]] ++
        List.replicate 28 [0, 0, 0]) 30 1 false = some [[1279, 0, 0]] ∧
     getCounts ([[(10 : ℚ)^12, 0, 0], [999999994118592/1000, 0, 0]] ++
        List.replicate 28 [0, 0, 0]) 30 1 true = some [[1280, 0, 0]]) :=
  ⟨⟨c1a_slow, by decide⟩, ⟨c1_slow_matrix, by decide⟩⟩

theorem claim_C1_witness :
    ∃ ms mf, getCounts (List.replicate 30 [(0 : ℚ), 0, 0]) 30 1 false = some ms ∧
      getCounts (List.replicate 30 [(0 : ℚ), 0, 0]) 30 1 true = some mf ∧
      ms.length = mf.length ∧ (∀ r ∈ ms, r.length = 3) ∧ (∀ r ∈ mf, r.length = 3) ∧
      ((∀ r ∈ List.replicate 30 [(0 : ℚ), 0, 0], ∀ v ∈ r, v = 0) → ms = mf) :=
  claim_C1 (List.replicate 30 [(0 : ℚ), 0, 0]) 30 1 (by decide) (by decide) (by decide)
    (fun r hr => by rw [List.eq_of_mem_replicate hr]; decide) (by decide)

/-- Claim C3: the spec presents the entry point as taking an `lfeSelect`
boolean that selects between standard and LFE trimming.  Corrected:
`get_counts` has no such parameter — both of its branches pass
`lfe_select=False` to the extraction, so the returned matrix always uses
standard trimming; the LFE flag exists only on the internal extraction
functions, where it does change the result. -/
theorem claim_C3 :
    (∀ (raw : List (List ℚ)) (freq epoch : ℕ), freq ∈ supportedFreqs →
      getCounts raw freq epoch true =
        (extractFast raw freq false epoch).map
          (fun chs => (transposeRect chs).map (fun row => row.map truncQ))) ∧
    (∀ (raw : List (List ℚ)) (freq epoch : ℕ), freq ∈ supportedFreqs →
      getCounts raw freq epoch false = slowBranch raw freq epoch) ∧
    extractFast (([0, -19] ++ List.replicate 28 0).map (fun v => [v, v, v])) 30 true 1 =
      some [[511], [511], [511]] ∧
    extractFast (([0, -19] ++ List.replicate 28 0).map (fun v => [v, v, v])) 30 false 1 =
      some [[510], [510], [510]] := by
  refine ⟨?_, ?_, c3_fast_true, c3_fast_false⟩
  · intro raw freq epoch hf
    unfold getCounts
    rw [if_pos hf, if_pos rfl]
  · intro raw freq epoch hf
    unfold getCounts
    rw [if_pos hf, if_neg Bool.false_ne_true]

theorem claim_C3_witness :
    30 ∈ supportedFreqs ∧
    getCounts [[(1 : ℚ), 2, 3]] 30 1 true =
      (extractFast [[(1 : ℚ), 2, 3]] 30 false 1).map
        (fun chs => (transposeRect chs).map (fun row => row.map truncQ)) :=
  ⟨by decide, claim_C3.1 [[(1 : ℚ), 2, 3]] 30 1 (by decide)⟩

/-- Claim C3, refuting instance: on the exhibited 30-sample input the LFE
extraction yields 511 where the standard one yields 510, yet `get_counts`
returns the standard matrix `[[510,510,510]]` under BOTH of its boolean
arguments — no argument of the entry point selects the LFE result. -/
theorem claim_C3_counterexample :
    getCounts (([0, -19] ++ List.replicate 28 0).map (fun v => [v, v, v])) 30 1 true =
      some [[510, 510, 510]] ∧
    getCounts (([0, -19] ++ List.replicate 28 0).map (fun v => [v, v, v])) 30 1 false =
      some [[510, 510, 510]] ∧
    (extractFast (([0, -19] ++ List.replicate 28 0).map (fun v => [v, v, v])) 30 true 1).map
      (fun chs => (transposeRect chs).map (fun row => row.map truncQ)) =
      some [[511, 511, 511]] ∧
    ∀ m : Bool, getCounts (([0, -19] ++ List.replicate 28 0).map (fun v => [v, v, v]))
      30 1 m ≠ some [[511, 511, 511]] := by
  refine ⟨c3_getCounts_true, c3_getCounts_false, ?_, ?_⟩
  · rw [c3_fast_true]
    decide
  · intro m
    cases m
    · rw [c3_getCounts_false]
      decide
    · rw [c3_getCounts_true]
      decide

theorem getD_bounds {xs : List ℚ} {c : ℚ} (hc : 0 ≤ c)
    (h : ∀ v ∈ xs, 0 ≤ v ∧ v ≤ c) (i : ℕ) :
    0 ≤ xs.getD i 0 ∧ xs.getD i 0 ≤ c := by
  by_cases hi : i < xs.length
  · have he : xs.getD i 0 = xs[i] := by
      simp [List.getD_eq_getElem?_getD, List.getElem?_eq_getElem hi]
    rw [he]
    exact h _ (List.getElem_mem hi)
  · rw [getD_eq_zero_of_le (Nat.le_of_not_lt hi)]
    exact ⟨le_refl 0, hc⟩

theorem truncQ_bounds {q : ℚ} {n : ℤ} (h0 : 0 ≤ q) (hc : q ≤ (n : ℚ)) :
    0 ≤ truncQ q ∧ truncQ q ≤ n := by
  rw [truncQ, if_pos h0]
  refine ⟨Int.floor_nonneg.mpr h0, ?_⟩
  have := Int.floor_mono hc
  simpa using this

theorem decimate10Slow_bounds {tr : List ℚ}
    (h : ∀ v ∈ tr, 0 ≤ v ∧ v ≤ 128) :
    ∀ v ∈ decimate10Slow tr, 0 ≤ v ∧ v ≤ 128 := by
  intro v hv
  rw [decimate10Slow, List.mem_map] at hv
  obtain ⟨k, _, rfl⟩ := hv
  have ha := getD_bounds (by norm_num) h (3 * k)
  have hb := getD_bounds (by norm_num) h (3 * k + 1)
  have hc := getD_bounds (by norm_num) h (3 * k + 2)
  have h0 : (0 : ℚ) ≤
      (tr.getD (3 * k) 0 + tr.getD (3 * k + 1) 0 + tr.getD (3 * k + 2) 0) / 3 := by
    linarith [ha.1, hb.1, hc.1]
  have h1 : (tr.getD (3 * k) 0 + tr.getD (3 * k + 1) 0 + tr.getD (3 * k + 2) 0) / 3 ≤
      128 := by
    linarith [ha.2, hb.2, hc.2]
  constructor
  · exact_mod_cast Int.floor_nonneg.mpr h0
  · exact le_trans (Int.floor_le _) h1

theorem epochSumSlow_bounds {d10 : List ℚ} {epoch : ℕ} (he : 1 ≤ epoch)
    (h : ∀ v ∈ d10, 0 ≤ v ∧ v ≤ 128) :
    ∀ v ∈ epochSumSlow d10 epoch, 0 ≤ v ∧ v ≤ 1280 * (epoch : ℚ) := by
  intro v hv
  rw [epochSumSlow, List.mem_map] at hv
  obtain ⟨i, _, rfl⟩ := hv
  have hs0 : 0 ≤ sumTo (fun t => d10.getD (i * (epoch * 10) + t) 0) (epoch * 10) :=
    sumTo_nonneg _ (fun k _ => (getD_bounds (by norm_num) h _).1)
  have hs1 : sumTo (fun t => d10.getD (i * (epoch * 10) + t) 0) (epoch * 10) ≤
      ((epoch * 10 : ℕ) : ℚ) * 128 :=
    sumTo_le _ (fun k _ => (getD_bounds (by norm_num) h _).2)
  have hle : ((epoch * 10 : ℕ) : ℚ) * 128 = 1280 * (epoch : ℚ) := by
    push_cast
    ring
  constructor
  · exact_mod_cast Int.floor_nonneg.mpr hs0
  · exact le_trans (Int.floor_le _) (le_trans hs1 (le_of_eq hle))

theorem extractSlow_bounds {xs : List ℚ} {freq : ℕ} {lfe : Bool} {epoch : ℕ} {cx : List ℚ}
    (he : 1 ≤ epoch) (h : extractSlow xs freq lfe epoch = some cx) :
    ∀ v ∈ cx, 0 ≤ v ∧ v ≤ 1280 * (epoch : ℚ) := by
  cases hd : downsampleSlow xs freq with
  | nil =>
    unfold extractSlow at h
    rw [hd] at h
    simp at h
  | cons x0 rest =>
    rw [extractSlow_cons hd lfe epoch] at h
    injection h with h
    subst h
    apply epochSumSlow_bounds he
    apply decimate10Slow_bounds
    intro v hv
    rw [List.mem_map] at hv
    obtain ⟨y, _, rfl⟩ := hv
    exact trimSlow_bounds lfe y

theorem slowBranch_bounds {raw : List (List ℚ)} {freq epoch : ℕ} {counts : List (List ℤ)}
    (he : 1 ≤ epoch) (h : slowBranch raw freq epoch = some counts) :
    ∀ row ∈ counts, ∀ v ∈ row, 0 ≤ v ∧ v ≤ 1280 * (epoch : ℤ) := by
  have hcast : ((1280 * (epoch : ℤ) : ℤ) : ℚ) = 1280 * (epoch : ℚ) := by
    push_cast
    ring
  unfold slowBranch at h
  split at h
  next x y z hx hy hz =>
    split at h
    next cx cy cz hcx hcy hcz =>
      injection h with h
      subst h
      intro row hrow v hv
      rw [List.mem_map] at hrow
      obtain ⟨i, _, rfl⟩ := hrow
      have hbx := extractSlow_bounds he hcx
      have hby := extractSlow_bounds he hcy
      have hbz := extractSlow_bounds he hcz
      have hq : (0 : ℚ) ≤ 1280 * (epoch : ℚ) := by positivity
      simp only [List.mem_cons, List.not_mem_nil, or_false] at hv
      rcases hv with rfl | rfl | rfl
      · have := getD_bounds hq hbx i
        exact truncQ_bounds this.1 (hcast ▸ this.2)
      · have := getD_bounds hq hby i
        exact truncQ_bounds this.1 (hcast ▸ this.2)
      · have := getD_bounds hq hbz i
        exact truncQ_bounds this.1 (hcast ▸ this.2)
    next =>
      simp at h
  next =>
    simp at h

theorem fastTail_bounds (dn : List ℚ) {epoch : ℕ} (he : 1 ≤ epoch) :
    ∀ v ∈ fastTail dn false epoch, 0 ≤ v ∧ v ≤ 1280 * (epoch : ℚ) := by
  rw [fastTail, sumCounts_eq_epochSumSlow _ _ he, resample10hz_eq_decimate]
  apply epochSumSlow_bounds he
  apply decimate10Slow_bounds
  intro v hv
  rw [List.mem_map] at hv
  obtain ⟨y, _, rfl⟩ := hv
  rw [trimFast_false_eq]
  exact trimSlow_bounds false y

theorem fastBranch_bounds {raw : List (List ℚ)} {freq epoch : ℕ} {counts : List (List ℤ)}
    (he : 1 ≤ epoch)
    (h : (extractFast raw freq false epoch).map
        (fun chs => (transposeRect chs).map (fun row => row.map truncQ)) = some counts) :
    ∀ row ∈ counts, ∀ v ∈ row, 0 ≤ v ∧ v ≤ 1280 * (epoch : ℤ) := by
  have hcast : ((1280 * (epoch : ℤ) : ℤ) : ℚ) = 1280 * (epoch : ℚ) := by
    push_cast
    ring
  have hq : (0 : ℚ) ≤ 1280 * (epoch : ℚ) := by positivity
  cases hE : extractFast raw freq false epoch with
  | none =>
    rw [hE] at h
    simp at h
  | some chs =>
    rw [hE, Option.map_some'] at h
    injection h with h
    subst h
    have hch : ∀ c ∈ chs, ∀ v ∈ c, 0 ≤ v ∧ v ≤ 1280 * (epoch : ℚ) := by
      simp only [extractFast] at hE
      split at hE
      next =>
        simp at hE
      next =>
        injection hE with hE
        subst hE
        intro c hc
        rw [List.mem_map] at hc
        obtain ⟨dn, _, rfl⟩ := hc
        exact fastTail_bounds dn he
    intro row hrow v hv
    rw [List.mem_map] at hrow
    obtain ⟨r, hr, rfl⟩ := hrow
    rw [List.mem_map] at hv
    obtain ⟨q, hq2, rfl⟩ := hv
    rw [transposeRect, List.mem_map] at hr
    obtain ⟨j, _, rfl⟩ := hr
    rw [List.mem_map] at hq2
    obtain ⟨c, hc, rfl⟩ := hq2
    have := getD_bounds hq (hch c hc) j
    exact truncQ_bounds this.1 (hcast ▸ this.2)

/-- Claim C10: every entry of any matrix returned by `get_counts` with a
positive epoch length, in either mode, is an integer in `[0, 1280·epoch]`:
trimming bounds each sample to `[0,128]`, the 10 Hz decimation preserves the
bound, and each epoch accumulates `10·epoch` such values. -/
theorem claim_C10 (raw : List (List ℚ)) (freq epoch : ℕ) (m : Bool)
    (counts : List (List ℤ)) (he : 1 ≤ epoch)
    (h : getCounts raw freq epoch m = some counts) :
    ∀ row ∈ counts, ∀ v ∈ row, 0 ≤ v ∧ v ≤ 1280 * (epoch : ℤ) := by
  unfold getCounts at h
  by_cases hf : freq ∈ supportedFreqs
  · rw [if_pos hf] at h
    cases m
    · rw [if_neg Bool.false_ne_true] at h
      exact slowBranch_bounds he h
    · rw [if_pos rfl] at h
      exact fastBranch_bounds he h
  · rw [if_neg hf] at h
    simp at h

theorem claim_C10_witness :
    1 ≤ 1 ∧
    getCounts (List.replicate 30 (List.replicate 3 0)) 30 1 false = some [[0, 0, 0]] ∧
    ∀ row ∈ [[(0 : ℤ), 0, 0]], ∀ v ∈ row, 0 ≤ v ∧ v ≤ 1280 * (1 : ℤ) := by
  have hsome : getCounts (List.replicate 30 (List.replicate 3 0)) 30 1 false =
      some [[0, 0, 0]] := by
    rw [getCounts_slow_zero 30 30 1 (by decide) (by decide)]
    decide
  exact ⟨le_refl 1, hsome, claim_C10 _ 30 1 false _ (le_refl 1) hsome⟩
end AGCount
